import Mathlib

/-!
# Verification of the node-dhcp core protocol engine

The repository ships its engine interface as a TypeScript declaration file
(`src/lib/dhcp.d.ts`); the engine itself (option codec, lease pool, server and
client protocol machines) is described by the accompanying design document.
This file gives a shallow embedding of that engine and proves the testable
properties stated there.  Components whose executable code is absent from the
repository are modelled from the specification text, as marked in the doc
comments below.
-/

namespace Dhcp

/-- Modelled from the spec: the `DecodeError` result of `OptionCodec.decode`.
`Truncated` covers a cut-off option triple or a buffer too short for the fixed
header, `BadLength` a fixed-width typed option whose byte count does not match
its type, `BadMagic` a missing magic cookie. -/
inductive DecodeError
  | Truncated
  | BadLength
  | BadMagic
deriving Repr, DecidableEq

/-- Big-endian serialization of a natural number into `w` bytes
(most significant first), as used for the fixed-width integer option types. -/
def toBytesBE : Nat → Nat → List Nat
  | 0, _ => []
  | w + 1, n => toBytesBE w (n / 256) ++ [n % 256]

/-- Big-endian deserialization of a byte list into a natural number. -/
def fromBytesBE (l : List Nat) : Nat :=
  l.foldl (fun acc b => acc * 256 + b) 0

@[simp] theorem length_toBytesBE (w n : Nat) : (toBytesBE w n).length = w := by
  induction w generalizing n with
  | zero => simp [toBytesBE]
  | succ k ih => simp [toBytesBE, ih]

theorem mem_toBytesBE_lt (w n : Nat) : ∀ b ∈ toBytesBE w n, b < 256 := by
  induction w generalizing n with
  | zero => simp [toBytesBE]
  | succ k ih =>
    intro b hb
    simp only [toBytesBE, List.mem_append, List.mem_singleton] at hb
    rcases hb with hb | hb
    · exact ih _ b hb
    · subst hb; exact Nat.mod_lt _ (by norm_num)

theorem fromBytesBE_append_singleton (l : List Nat) (b : Nat) :
    fromBytesBE (l ++ [b]) = fromBytesBE l * 256 + b := by
  simp [fromBytesBE, List.foldl_append]

theorem fromBytesBE_toBytesBE (w n : Nat) (h : n < 256 ^ w) :
    fromBytesBE (toBytesBE w n) = n := by
  induction w generalizing n with
  | zero =>
    simp [pow_zero] at h
    simp [toBytesBE, fromBytesBE, h]
  | succ k ih =>
    have hdiv : n / 256 < 256 ^ k := by
      rw [Nat.div_lt_iff_lt_mul (by norm_num : 0 < 256)]
      calc n < 256 ^ (k + 1) := h
        _ = 256 ^ k * 256 := by ring
    rw [toBytesBE, fromBytesBE_append_singleton, ih _ hdiv]
    omega

/-- A four-byte IPv4 address as carried by `IP`-typed options. -/
structure Ip4 where
  b0 : Nat
  b1 : Nat
  b2 : Nat
  b3 : Nat
deriving Repr, DecidableEq

/-- The serialized form of an address: exactly four bytes. -/
def Ip4.bytes (a : Ip4) : List Nat := [a.b0, a.b1, a.b2, a.b3]

/-- All four components fit in a byte. -/
def Ip4.validb (a : Ip4) : Bool :=
  decide (a.b0 < 256) && decide (a.b1 < 256) && decide (a.b2 < 256) &&
    decide (a.b3 < 256)

/-- The value types an `OptionSpec` entry may declare
(`DhcpOption.type` in `dhcp.d.ts`). -/
inductive OptValueType
  | UInt8
  | ASCII
  | IP
  | IPs
  | UInt16
  | UInt32
  | Bool
deriving Repr, DecidableEq

/-- A decoded option value.  `raw` holds the payload of a code that is not in
the option table, which the codec retains without interpretation. -/
inductive OptValue
  | u8 (n : Nat)
  | ascii (s : String)
  | ip (a : Ip4)
  | ips (l : List Ip4)
  | u16 (n : Nat)
  | u32 (n : Nat)
  | flag (b : Bool)
  | raw (bs : List Nat)
deriving Repr, DecidableEq

/-- Modelled from the spec: per-type serialization of an option value.
UInt8/UInt16/UInt32 are big-endian fixed width, ASCII is copied verbatim,
IP is exactly four bytes, IPs is the concatenation of four-byte groups,
Bool is a single byte. -/
def serializeValue : OptValue → List Nat
  | .u8 n => [n]
  | .ascii s => s.toList.map Char.toNat
  | .ip a => a.bytes
  | .ips l => (l.map Ip4.bytes).flatten
  | .u16 n => toBytesBE 2 n
  | .u32 n => toBytesBE 4 n
  | .flag b => [if b then 1 else 0]
  | .raw bs => bs

/-- Group a byte list into four-byte addresses (the `IPs` decode rule). -/
def chunk4 : List Nat → List Ip4
  | b0 :: b1 :: b2 :: b3 :: rest => ⟨b0, b1, b2, b3⟩ :: chunk4 rest
  | _ => []

/-- Modelled from the spec: per-type decode rules.  Fixed-width integers fail
with `BadLength` on a wrong byte count; ASCII is copied verbatim; IP is
exactly 4 bytes; IPs requires a multiple of 4; Bool reads one byte,
nonzero meaning true. -/
def decodeValue : OptValueType → List Nat → Except DecodeError OptValue
  | .UInt8, [b] => .ok (.u8 b)
  | .UInt8, _ => .error .BadLength
  | .ASCII, bs => .ok (.ascii (String.mk (bs.map Char.ofNat)))
  | .IP, [b0, b1, b2, b3] => .ok (.ip ⟨b0, b1, b2, b3⟩)
  | .IP, _ => .error .BadLength
  | .IPs, bs =>
    if bs.length % 4 = 0 then .ok (.ips (chunk4 bs)) else .error .BadLength
  | .UInt16, bs =>
    if bs.length = 2 then .ok (.u16 (fromBytesBE bs)) else .error .BadLength
  | .UInt32, bs =>
    if bs.length = 4 then .ok (.u32 (fromBytesBE bs)) else .error .BadLength
  | .Bool, [b] => .ok (.flag (b != 0))
  | .Bool, _ => .error .BadLength

/-- A value is representative for a declared type: it is of that type's shape
and every numeric component fits its wire width (ASCII restricted to
7-bit characters). -/
def validValue : OptValueType → OptValue → Bool
  | .UInt8, .u8 n => decide (n < 256)
  | .ASCII, .ascii s => s.toList.all (fun c => decide (c.toNat < 128))
  | .IP, .ip a => a.validb
  | .IPs, .ips l => l.all Ip4.validb
  | .UInt16, .u16 n => decide (n < 256 ^ 2)
  | .UInt32, .u32 n => decide (n < 256 ^ 4)
  | .Bool, .flag _ => true
  | _, _ => false

theorem chunk4_flatten (l : List Ip4) :
    chunk4 ((l.map Ip4.bytes).flatten) = l := by
  induction l with
  | nil => simp [chunk4]
  | cons a rest ih => simp [Ip4.bytes, chunk4, ih]

theorem length_flatten_ip4 (l : List Ip4) :
    ((l.map Ip4.bytes).flatten).length = 4 * l.length := by
  induction l with
  | nil => simp
  | cons a rest ih => simp [Ip4.bytes, ih]; ring

/-- Decoding inverts serialization for every representative typed value. -/
theorem decodeValue_serializeValue (t : OptValueType) (v : OptValue)
    (h : validValue t v = true) :
    decodeValue t (serializeValue v) = .ok v := by
  cases t <;> cases v <;> simp [validValue] at h
  case UInt8.u8 n =>
    simp [serializeValue, decodeValue]
  case ASCII.ascii s =>
    simp only [serializeValue, decodeValue, List.map_map]
    have hmap : s.toList.map (Char.ofNat ∘ Char.toNat) = s.toList := by
      conv_rhs => rw [← List.map_id s.toList]
      apply List.map_congr_left
      intro c _
      exact Char.ofNat_toNat c
    rw [hmap]
    simp
  case IP.ip a =>
    simp [serializeValue, Ip4.bytes, decodeValue]
  case IPs.ips l =>
    simp only [serializeValue, decodeValue, length_flatten_ip4]
    simp [Nat.mul_mod_right, chunk4_flatten]
  case UInt16.u16 n =>
    simp [serializeValue, decodeValue, fromBytesBE_toBytesBE 2 n h]
  case UInt32.u32 n =>
    simp [serializeValue, decodeValue, fromBytesBE_toBytesBE 4 n h]
  case Bool.flag b =>
    cases b <;> simp [serializeValue, decodeValue]

/-- Every serialized byte of a representative value fits in a byte. -/
theorem serializeValue_lt (t : OptValueType) (v : OptValue)
    (h : validValue t v = true) : ∀ b ∈ serializeValue v, b < 256 := by
  cases t <;> cases v <;> simp [validValue] at h
  case UInt8.u8 n =>
    intro b hb
    simp [serializeValue] at hb
    omega
  case ASCII.ascii s =>
    intro b hb
    simp [serializeValue] at hb
    obtain ⟨c, hc, rfl⟩ := hb
    have := h c hc
    omega
  case IP.ip a =>
    simp [Ip4.validb] at h
    intro b hb
    simp [serializeValue, Ip4.bytes] at hb
    rcases hb with rfl | rfl | rfl | rfl <;> omega
  case IPs.ips l =>
    intro b hb
    simp [serializeValue, Ip4.bytes] at hb
    obtain ⟨a, ha, hcase⟩ := hb
    have := h a ha
    simp [Ip4.validb] at this
    rcases hcase with rfl | rfl | rfl | rfl <;> omega
  case UInt16.u16 n =>
    intro b hb
    exact mem_toBytesBE_lt 2 n b hb
  case UInt32.u32 n =>
    intro b hb
    exact mem_toBytesBE_lt 4 n b hb
  case Bool.flag bb =>
    intro b hb
    cases bb <;> simp [serializeValue] at hb <;> omega

/-- Modelled from the spec: split an option payload into consecutive chunks of
at most 255 bytes, as the encoder must when a payload exceeds the one-byte
length field. -/
def chunk255 (l : List Nat) : List (List Nat) :=
  if _h : l.length ≤ 255 then [l]
  else l.take 255 :: chunk255 (l.drop 255)
termination_by l.length
decreasing_by
  simp only [List.length_drop]
  omega

theorem chunk255_flatten (l : List Nat) : (chunk255 l).flatten = l := by
  induction l using chunk255.induct with
  | case1 l h => rw [chunk255]; simp [h]
  | case2 l h ih =>
    rw [chunk255]
    simp only [dif_neg h, List.flatten_cons, ih]
    exact List.take_append_drop 255 l

theorem chunk255_length_le (l : List Nat) :
    ∀ c ∈ chunk255 l, c.length ≤ 255 := by
  induction l using chunk255.induct with
  | case1 l h => rw [chunk255]; simp [h]
  | case2 l h ih =>
    rw [chunk255]
    simp only [dif_neg h, List.mem_cons]
    rintro c (rfl | hc)
    · simp
    · exact ih c hc

theorem chunk255_ne_nil (l : List Nat) : chunk255 l ≠ [] := by
  rw [chunk255]
  split <;> simp

/-- The wire bytes of the consecutive same-code entries for one option:
one (code, length, value) triple per chunk of the payload. -/
def encodeTLVs (c : Nat) (payload : List Nat) : List Nat :=
  ((chunk255 payload).map (fun ch => c :: ch.length :: ch)).flatten

/-- Modelled from the spec: walk the options area consuming (code, length,
value) triples until the terminator code 255 or buffer exhaustion; code 0 is
padding with no length byte; a cut-off triple is `Truncated`. -/
def parseOpts (bs : List Nat) : Except DecodeError (List (Nat × List Nat)) :=
  match bs with
  | [] => .ok []
  | c :: rest =>
    if c = 255 then .ok []
    else if c = 0 then parseOpts rest
    else
      match rest with
      | [] => .error .Truncated
      | len :: rest2 =>
        if len ≤ rest2.length then
          match parseOpts (rest2.drop len) with
          | .ok tail => .ok ((c, rest2.take len) :: tail)
          | .error e => .error e
        else .error .Truncated
termination_by bs.length
decreasing_by
  · simp
  · simp only [List.length_drop]
    simp
    omega

/-- Modelled from the spec: duplicate occurrences of the same option code are
concatenated in encounter order into the payload of the first occurrence. -/
def mergeDups : List (Nat × List Nat) → List (Nat × List Nat)
  | [] => []
  | (c, b) :: rest =>
    (c, b ++ ((rest.filter (fun p => decide (p.1 = c))).map Prod.snd).flatten) ::
      mergeDups (rest.filter (fun p => decide (p.1 ≠ c)))
termination_by l => l.length
decreasing_by
  simp only [List.length_cons]
  exact Nat.lt_succ_of_le (List.length_filter_le _ rest)

/-- The wire bytes of a triple list. -/
def tlvBytes (ts : List (Nat × List Nat)) : List Nat :=
  (ts.map (fun p => p.1 :: p.2.length :: p.2)).flatten

theorem parseOpts_triple (c : Nat) (body rest : List Nat)
    (hc0 : c ≠ 0) (hc255 : c ≠ 255) :
    parseOpts (c :: body.length :: (body ++ rest)) =
      match parseOpts rest with
      | .ok tail => .ok ((c, body) :: tail)
      | .error e => .error e := by
  rw [parseOpts]
  simp only [if_neg hc255, if_neg hc0]
  rw [if_pos (by simp)]
  rw [List.take_left, List.drop_left]

theorem parseOpts_tlvBytes (ts : List (Nat × List Nat)) (tail : List Nat)
    (h : ∀ p ∈ ts, p.1 ≠ 0 ∧ p.1 ≠ 255) :
    parseOpts (tlvBytes ts ++ tail) =
      match parseOpts tail with
      | .ok r => .ok (ts ++ r)
      | .error e => .error e := by
  induction ts with
  | nil =>
    simp only [tlvBytes, List.map_nil, List.flatten_nil, List.nil_append]
    cases parseOpts tail <;> simp
  | cons p ts ih =>
    obtain ⟨c, body⟩ := p
    have hc := h (c, body) (List.mem_cons_self _ _)
    simp only [tlvBytes, List.map_cons, List.flatten_cons, List.cons_append,
      List.append_assoc]
    rw [parseOpts_triple c body _ hc.1 hc.2]
    rw [show ((ts.map (fun p => p.1 :: p.2.length :: p.2)).flatten ++ tail) =
      tlvBytes ts ++ tail from rfl]
    rw [ih (fun q hq => h q (List.mem_cons_of_mem _ hq))]
    cases parseOpts tail <;> simp

theorem parseOpts_terminator : parseOpts [255] = .ok [] := by
  rw [parseOpts]
  simp

/-- `mergeDups` collapses a leading run of one code (no later occurrences of
that code) into a single entry carrying the concatenated payload. -/
theorem mergeDups_run (c : Nat) (chs : List (List Nat))
    (rest : List (Nat × List Nat)) (hne : chs ≠ [])
    (hrest : ∀ p ∈ rest, p.1 ≠ c) :
    mergeDups (chs.map (fun ch => (c, ch)) ++ rest) =
      (c, chs.flatten) :: mergeDups rest := by
  cases chs with
  | nil => exact absurd rfl hne
  | cons ch chs =>
    simp only [List.map_cons, List.cons_append]
    simp only [mergeDups]
    have hfil1 : (chs.map (fun ch => (c, ch)) ++ rest).filter
        (fun p => decide (p.1 = c)) = chs.map (fun ch => (c, ch)) := by
      rw [List.filter_append]
      have h1 : (chs.map (fun ch => (c, ch))).filter
          (fun p => decide (p.1 = c)) = chs.map (fun ch => (c, ch)) := by
        apply List.filter_eq_self.mpr
        intro p hp
        simp only [List.mem_map] at hp
        obtain ⟨x, _, rfl⟩ := hp
        simp
      have h2 : rest.filter (fun p => decide (p.1 = c)) = [] := by
        apply List.filter_eq_nil_iff.mpr
        intro p hp
        simpa using hrest p hp
      rw [h1, h2, List.append_nil]
    have hfil2 : (chs.map (fun ch => (c, ch)) ++ rest).filter
        (fun p => decide (p.1 ≠ c)) = rest := by
      rw [List.filter_append]
      have h1 : (chs.map (fun ch => (c, ch))).filter
          (fun p => decide (p.1 ≠ c)) = [] := by
        apply List.filter_eq_nil_iff.mpr
        intro p hp
        simp only [List.mem_map] at hp
        obtain ⟨x, _, rfl⟩ := hp
        simp
      have h2 : rest.filter (fun p => decide (p.1 ≠ c)) = rest := by
        apply List.filter_eq_self.mpr
        intro p hp
        simpa using hrest p hp
      rw [h1, h2, List.nil_append]
    rw [hfil1, hfil2]
    simp [List.map_map]

/-- One row of the process-wide `OptionSpec` table: the option code together
with the `DhcpOption` descriptor fields of `dhcp.d.ts` (diagnostic name, wire
value type, configuration key, attribute name, lazily-resolved default,
diagnostics-only enum labels). -/
structure OptEntry where
  code : Nat
  name : String
  type : OptValueType
  config : Option String := none
  attr : Option String := none
  default : Option OptValue := none
  enumLabels : List (Nat × String) := []
deriving Repr, DecidableEq

/-- The option table, in declared (emission) order. -/
abbrev OptTable := List OptEntry

/-- Look up the descriptor registered for a code. -/
def findEntry (table : OptTable) (c : Nat) : Option OptEntry :=
  table.find? (fun e => e.code == c)

/-- The fixed BOOTP/DHCP header fields of a `Packet`. -/
structure Header where
  op : Nat
  htype : Nat
  hops : Nat
  xid : Nat
  secs : Nat
  flags : Nat
  ciaddr : Nat
  yiaddr : Nat
  siaddr : Nat
  giaddr : Nat
  chaddr : List Nat
  sname : List Nat
  file : List Nat
deriving Repr, DecidableEq

/-- A decoded DHCP packet: header fields plus the ordered option entries. -/
structure Packet where
  hdr : Header
  options : List (Nat × OptValue)
deriving Repr, DecidableEq

/-- The four magic-cookie bytes that precede the options area. -/
def magicCookie : List Nat := [99, 130, 83, 99]

/-- Modelled from the spec: the fixed-offset RFC 2131 header serialization
(op, htype, hlen = 6, hops, xid, secs, flags, the four address fields, the
16-byte chaddr field padded from its 6 Ethernet bytes, sname, file). -/
def serializeHeader (h : Header) : List Nat :=
  toBytesBE 1 h.op ++ (toBytesBE 1 h.htype ++ (toBytesBE 1 6 ++ (toBytesBE 1 h.hops ++
    (toBytesBE 4 h.xid ++ (toBytesBE 2 h.secs ++ (toBytesBE 2 h.flags ++
    (toBytesBE 4 h.ciaddr ++ (toBytesBE 4 h.yiaddr ++ (toBytesBE 4 h.siaddr ++
    (toBytesBE 4 h.giaddr ++ ((h.chaddr ++ List.replicate 10 0) ++
    (h.sname ++ h.file))))))))))))

/-- Read a `w`-byte big-endian integer off the front of a byte stream. -/
def readBE (w : Nat) (bs : List Nat) : Nat × List Nat :=
  (fromBytesBE (bs.take w), bs.drop w)

/-- Read `w` raw bytes off the front of a byte stream. -/
def readRaw (w : Nat) (bs : List Nat) : List Nat × List Nat :=
  (bs.take w, bs.drop w)

theorem readBE_spec (w n : Nat) (rest : List Nat) (h : n < 256 ^ w) :
    readBE w (toBytesBE w n ++ rest) = (n, rest) := by
  unfold readBE
  rw [List.take_left' (length_toBytesBE w n), List.drop_left' (length_toBytesBE w n),
    fromBytesBE_toBytesBE w n h]

theorem readRaw_spec (w : Nat) (l rest : List Nat) (h : l.length = w) :
    readRaw w (l ++ rest) = (l, rest) := by
  unfold readRaw
  rw [List.take_left' h, List.drop_left' h]

/-- Modelled from the spec: reading the fixed-length header back at its fixed
byte offsets, returning the parsed fields and the remaining bytes. -/
def decodeHeader (bs : List Nat) : Header × List Nat :=
  let p1 := readBE 1 bs
  let p2 := readBE 1 p1.2
  let p3 := readBE 1 p2.2
  let p4 := readBE 1 p3.2
  let p5 := readBE 4 p4.2
  let p6 := readBE 2 p5.2
  let p7 := readBE 2 p6.2
  let p8 := readBE 4 p7.2
  let p9 := readBE 4 p8.2
  let p10 := readBE 4 p9.2
  let p11 := readBE 4 p10.2
  let p12 := readRaw 16 p11.2
  let p13 := readRaw 64 p12.2
  let p14 := readRaw 128 p13.2
  (⟨p1.1, p2.1, p4.1, p5.1, p6.1, p7.1, p8.1, p9.1, p10.1, p11.1,
    p12.1.take 6, p13.1, p14.1⟩, p14.2)

/-- Header wellformedness: every numeric field fits its wire width,
`chaddr` is the 6 Ethernet bytes, `sname` and `file` fill their fixed
regions. -/
structure WfHeader (h : Header) : Prop where
  op : h.op < 256 ^ 1
  htype : h.htype < 256 ^ 1
  hops : h.hops < 256 ^ 1
  xid : h.xid < 256 ^ 4
  secs : h.secs < 256 ^ 2
  flags : h.flags < 256 ^ 2
  ciaddr : h.ciaddr < 256 ^ 4
  yiaddr : h.yiaddr < 256 ^ 4
  siaddr : h.siaddr < 256 ^ 4
  giaddr : h.giaddr < 256 ^ 4
  chaddr : h.chaddr.length = 6
  sname : h.sname.length = 64
  file : h.file.length = 128

theorem length_serializeHeader (h : Header) (wf : WfHeader h) :
    (serializeHeader h).length = 236 := by
  simp [serializeHeader, wf.chaddr, wf.sname, wf.file]

theorem decodeHeader_serializeHeader (h : Header) (rest : List Nat)
    (wf : WfHeader h) :
    decodeHeader (serializeHeader h ++ rest) = (h, rest) := by
  simp only [decodeHeader, serializeHeader, List.append_assoc]
  rw [readBE_spec 1 h.op _ wf.op]
  dsimp only
  rw [readBE_spec 1 h.htype _ wf.htype]
  dsimp only
  rw [readBE_spec 1 6 _ (by norm_num)]
  dsimp only
  rw [readBE_spec 1 h.hops _ wf.hops]
  dsimp only
  rw [readBE_spec 4 h.xid _ wf.xid]
  dsimp only
  rw [readBE_spec 2 h.secs _ wf.secs]
  dsimp only
  rw [readBE_spec 2 h.flags _ wf.flags]
  dsimp only
  rw [readBE_spec 4 h.ciaddr _ wf.ciaddr]
  dsimp only
  rw [readBE_spec 4 h.yiaddr _ wf.yiaddr]
  dsimp only
  rw [readBE_spec 4 h.siaddr _ wf.siaddr]
  dsimp only
  rw [readBE_spec 4 h.giaddr _ wf.giaddr]
  dsimp only
  rw [show h.chaddr ++ (List.replicate 10 0 ++ (h.sname ++ (h.file ++ rest))) =
    (h.chaddr ++ List.replicate 10 0) ++ (h.sname ++ (h.file ++ rest)) by
      simp [List.append_assoc]]
  rw [readRaw_spec 16 _ _ (by simp [wf.chaddr])]
  dsimp only
  rw [readRaw_spec 64 _ _ wf.sname]
  dsimp only
  rw [readRaw_spec 128 _ _ wf.file]
  dsimp only
  rw [List.take_left' wf.chaddr]

/-- The value a packet carries for a code, if any (first entry wins). -/
def lookupOpt (opts : List (Nat × OptValue)) (c : Nat) : Option OptValue :=
  (opts.find? (fun p => p.1 == c)).map Prod.snd

/-- Modelled from the spec: the encoder walks the `OptionSpec` table in
declared order, serializes the packet's value for each present code per its
`valueType`, and splits any payload longer than 255 bytes into consecutive
same-code entries. -/
def encodeOptions (table : OptTable) (opts : List (Nat × OptValue)) : List Nat :=
  (table.map (fun e =>
    match lookupOpt opts e.code with
    | some v => encodeTLVs e.code (serializeValue v)
    | none => [])).flatten

/-- Modelled from the spec: `OptionCodec.encode` — fixed header, magic cookie,
table-ordered options, terminator code 255. -/
def encode (table : OptTable) (p : Packet) : List Nat :=
  serializeHeader p.hdr ++ (magicCookie ++ (encodeOptions table p.options ++ [255]))

/-- Decode one merged option payload: a code found in the table is decoded
per its declared type, an unknown code is retained as raw bytes. -/
def decodePayload (table : OptTable) (c : Nat) (b : List Nat) :
    Except DecodeError OptValue :=
  match findEntry table c with
  | some e => decodeValue e.type b
  | none => .ok (.raw b)

/-- Interpret all merged (code, payload) pairs. -/
def decodeMerged (table : OptTable) :
    List (Nat × List Nat) → Except DecodeError (List (Nat × OptValue))
  | [] => .ok []
  | (c, b) :: rest =>
    let v : Except DecodeError OptValue := decodePayload table c b
    match v, decodeMerged table rest with
    | .ok w, .ok tail => .ok ((c, w) :: tail)
    | .error e, _ => .error e
    | .ok _, .error e => .error e

/-- Modelled from the spec: `OptionCodec.decode` — reject a buffer shorter
than the fixed header plus cookie as `Truncated`, read the fixed header,
check the cookie, walk the option triples, concatenate duplicate codes in
encounter order, then decode each payload per its declared type. -/
def decode (table : OptTable) (bs : List Nat) : Except DecodeError Packet :=
  if bs.length < 240 then .error .Truncated
  else if (decodeHeader bs).2.take 4 = magicCookie then
    match parseOpts ((decodeHeader bs).2.drop 4) with
    | .error e => .error e
    | .ok triples =>
      match decodeMerged table (mergeDups triples) with
      | .error e => .error e
      | .ok opts => .ok ⟨(decodeHeader bs).1, opts⟩
  else .error .BadMagic

/-- The canonical (table-ordered) form of a packet's option list, as emitted
by the encoder. -/
def canonicalOpts (table : OptTable) (opts : List (Nat × OptValue)) :
    List (Nat × OptValue) :=
  table.filterMap (fun e => (lookupOpt opts e.code).map (fun v => (e.code, v)))

/-- The (code, chunk) triples emitted for one table entry. -/
def emittedRun (opts : List (Nat × OptValue)) (e : OptEntry) :
    List (Nat × List Nat) :=
  match lookupOpt opts e.code with
  | some v => (chunk255 (serializeValue v)).map (fun ch => (e.code, ch))
  | none => []

/-- All (code, chunk) triples emitted for a packet, in table order. -/
def emittedTriples (table : OptTable) (opts : List (Nat × OptValue)) :
    List (Nat × List Nat) :=
  (table.map (emittedRun opts)).flatten

theorem tlvBytes_append (a b : List (Nat × List Nat)) :
    tlvBytes (a ++ b) = tlvBytes a ++ tlvBytes b := by
  simp [tlvBytes]

theorem encodeTLVs_eq_tlvBytes (c : Nat) (payload : List Nat) :
    encodeTLVs c payload =
      tlvBytes ((chunk255 payload).map (fun ch => (c, ch))) := by
  simp only [encodeTLVs, tlvBytes, List.map_map]
  rfl

theorem encodeOptions_eq_tlvBytes (table : OptTable)
    (opts : List (Nat × OptValue)) :
    encodeOptions table opts = tlvBytes (emittedTriples table opts) := by
  induction table with
  | nil => simp [encodeOptions, emittedTriples, tlvBytes]
  | cons e ts ih =>
    simp only [encodeOptions, emittedTriples, List.map_cons, List.flatten_cons]
    rw [tlvBytes_append]
    simp only [encodeOptions, emittedTriples] at ih
    rw [ih]
    congr 1
    unfold emittedRun
    cases lookupOpt opts e.code with
    | none => simp [tlvBytes]
    | some v => exact encodeTLVs_eq_tlvBytes e.code (serializeValue v)

/-- Table wellformedness: codes lie strictly between the pad code 0 and the
terminator code 255, and each code has exactly one entry. -/
structure WfTable (table : OptTable) : Prop where
  codes_lo : ∀ e ∈ table, 1 ≤ e.code
  codes_hi : ∀ e ∈ table, e.code ≤ 254
  nodup : (table.map OptEntry.code).Nodup

/-- Packet-option wellformedness for a table: one entry per code, and every
entry's value is representative for its declared type. -/
structure WfOptions (table : OptTable) (opts : List (Nat × OptValue)) : Prop where
  nodup : (opts.map Prod.fst).Nodup
  supported : ∀ p ∈ opts, ∃ e, findEntry table p.1 = some e ∧
    validValue e.type p.2 = true

theorem emittedTriples_code_mem (table : OptTable)
    (opts : List (Nat × OptValue)) :
    ∀ p ∈ emittedTriples table opts, ∃ e ∈ table, p.1 = e.code := by
  intro p hp
  simp only [emittedTriples, List.mem_flatten, List.mem_map] at hp
  obtain ⟨run, ⟨e, he, rfl⟩, hpr⟩ := hp
  refine ⟨e, he, ?_⟩
  rcases hl : lookupOpt opts e.code with _ | v <;>
    simp only [emittedRun, hl] at hpr
  · exact absurd hpr (List.not_mem_nil p)
  · simp only [List.mem_map] at hpr
    obtain ⟨ch, _, rfl⟩ := hpr
    rfl

theorem emittedTriples_code_bounds (table : OptTable)
    (opts : List (Nat × OptValue)) (ht : WfTable table) :
    ∀ p ∈ emittedTriples table opts, p.1 ≠ 0 ∧ p.1 ≠ 255 := by
  intro p hp
  obtain ⟨e, he, hcode⟩ := emittedTriples_code_mem table opts p hp
  have h1 := ht.codes_lo e he
  have h2 := ht.codes_hi e he
  omega

theorem parseOpts_encodeOptions (table : OptTable)
    (opts : List (Nat × OptValue)) (ht : WfTable table) :
    parseOpts (encodeOptions table opts ++ [255]) =
      .ok (emittedTriples table opts) := by
  rw [encodeOptions_eq_tlvBytes]
  rw [parseOpts_tlvBytes _ _ (emittedTriples_code_bounds table opts ht)]
  rw [parseOpts_terminator]
  simp

theorem findEntry_mem_code (table : OptTable) (c : Nat) (e : OptEntry)
    (h : findEntry table c = some e) : e ∈ table ∧ e.code = c := by
  unfold findEntry at h
  refine ⟨List.mem_of_find?_eq_some h, ?_⟩
  have := List.find?_some h
  simpa using this

theorem findEntry_self (table : OptTable) (ht : (table.map OptEntry.code).Nodup)
    (e : OptEntry) (he : e ∈ table) : findEntry table e.code = some e := by
  induction table with
  | nil => simp at he
  | cons f ts ih =>
    simp only [List.map_cons, List.nodup_cons] at ht
    rcases List.mem_cons.mp he with rfl | hmem
    · unfold findEntry
      exact List.find?_cons_of_pos _ (by simp)
    · have hne : f.code ≠ e.code := by
        intro hEq
        have hcm : e.code ∈ ts.map OptEntry.code :=
          List.mem_map_of_mem OptEntry.code hmem
        exact ht.1 (hEq ▸ hcm)
      unfold findEntry
      rw [List.find?_cons_of_neg _ (by simp [hne])]
      exact ih ht.2 hmem

theorem lookupOpt_mem (opts : List (Nat × OptValue)) (c : Nat) (v : OptValue)
    (h : lookupOpt opts c = some v) : (c, v) ∈ opts := by
  unfold lookupOpt at h
  cases hf : opts.find? (fun p => p.1 == c) with
  | none => simp [hf] at h
  | some q =>
    have h2 : q.2 = v := by
      simp only [hf] at h
      exact Option.some.inj h
    have hc := List.find?_some hf
    simp only [beq_iff_eq] at hc
    have hq := List.mem_of_find?_eq_some hf
    have hqe : q = (c, v) := Prod.ext hc h2
    exact hqe ▸ hq

theorem lookupOpt_eq_some_of_mem (opts : List (Nat × OptValue))
    (hnod : (opts.map Prod.fst).Nodup) (c : Nat) (v : OptValue)
    (h : (c, v) ∈ opts) : lookupOpt opts c = some v := by
  induction opts with
  | nil => simp at h
  | cons p rest ih =>
    simp only [List.map_cons, List.nodup_cons] at hnod
    rcases List.mem_cons.mp h with rfl | hmem
    · unfold lookupOpt
      rw [List.find?_cons_of_pos _ (by simp)]
      rfl
    · have hne : p.1 ≠ c := by
        intro hEq
        apply hnod.1
        have hcm : c ∈ rest.map Prod.fst := List.mem_map_of_mem Prod.fst hmem
        exact hEq ▸ hcm
      have hrec := ih hnod.2 hmem
      unfold lookupOpt at hrec ⊢
      rw [List.find?_cons_of_neg _ (by simp [hne])]
      exact hrec

theorem mergeDups_emittedTriples (table : OptTable)
    (opts : List (Nat × OptValue)) (ht : (table.map OptEntry.code).Nodup) :
    mergeDups (emittedTriples table opts) =
      table.filterMap (fun e =>
        (lookupOpt opts e.code).map (fun v => (e.code, serializeValue v))) := by
  induction table with
  | nil => simp [emittedTriples, mergeDups]
  | cons e ts ih =>
    simp only [List.map_cons, List.nodup_cons] at ht
    simp only [emittedTriples, List.map_cons, List.flatten_cons]
    have hfold : (ts.map (emittedRun opts)).flatten = emittedTriples ts opts := rfl
    have hrest : ∀ p ∈ emittedTriples ts opts, p.1 ≠ e.code := by
      intro p hp hEq
      obtain ⟨f, hf, hpf⟩ := emittedTriples_code_mem ts opts p hp
      apply ht.1
      rw [← hEq, hpf]
      exact List.mem_map_of_mem OptEntry.code hf
    rw [List.filterMap_cons]
    rcases hl : lookupOpt opts e.code with _ | v
    · simp only [emittedRun, hl, List.nil_append, hfold, Option.map_none']
      exact ih ht.2
    · simp only [emittedRun, hl, hfold, Option.map_some']
      rw [mergeDups_run e.code (chunk255 (serializeValue v)) _
        (chunk255_ne_nil _) hrest]
      rw [chunk255_flatten, ih ht.2]

theorem decodeMerged_serialized (table : OptTable)
    (opts : List (Nat × OptValue)) (ts : List OptEntry)
    (hfind : ∀ e ∈ ts, findEntry table e.code = some e)
    (hval : ∀ e ∈ ts, ∀ v, lookupOpt opts e.code = some v →
      validValue e.type v = true) :
    decodeMerged table (ts.filterMap (fun e =>
      (lookupOpt opts e.code).map (fun v => (e.code, serializeValue v)))) =
      .ok (canonicalOpts ts opts) := by
  induction ts with
  | nil => simp [decodeMerged, canonicalOpts]
  | cons e ts ih =>
    have hf' : ∀ f ∈ ts, findEntry table f.code = some f :=
      fun f hf => hfind f (List.mem_cons_of_mem e hf)
    have hv' : ∀ f ∈ ts, ∀ v, lookupOpt opts f.code = some v →
        validValue f.type v = true :=
      fun f hf => hval f (List.mem_cons_of_mem e hf)
    simp only [canonicalOpts, List.filterMap_cons]
    rcases hl : lookupOpt opts e.code with _ | v
    · simp only [Option.map_none']
      have ihe := ih hf' hv'
      simp only [canonicalOpts] at ihe
      exact ihe
    · simp only [Option.map_some']
      simp only [decodeMerged]
      unfold decodePayload
      rw [hfind e (List.mem_cons_self e ts)]
      dsimp only
      rw [decodeValue_serializeValue e.type v
        (hval e (List.mem_cons_self e ts) v hl)]
      have ihe := ih hf' hv'
      simp only [canonicalOpts] at ihe
      rw [ihe]

theorem canonicalOpts_sublist_codes (table : OptTable)
    (opts : List (Nat × OptValue)) :
    ((canonicalOpts table opts).map Prod.fst).Sublist
      (table.map OptEntry.code) := by
  induction table with
  | nil => simp [canonicalOpts]
  | cons e ts ih =>
    simp only [canonicalOpts, List.filterMap_cons, List.map_cons]
    rcases hl : lookupOpt opts e.code with _ | v
    · simp only [Option.map_none']
      exact (ih).cons e.code
    · simp only [Option.map_some', List.map_cons]
      exact (ih).cons₂ e.code

theorem canonicalOpts_perm (table : OptTable) (opts : List (Nat × OptValue))
    (ht : (table.map OptEntry.code).Nodup)
    (hnod : (opts.map Prod.fst).Nodup)
    (hsub : ∀ p ∈ opts, ∃ e ∈ table, e.code = p.1) :
    (canonicalOpts table opts).Perm opts := by
  have hcnod : (canonicalOpts table opts).Nodup :=
    List.Nodup.of_map Prod.fst
      ((canonicalOpts_sublist_codes table opts).nodup ht)
  have honod : opts.Nodup := List.Nodup.of_map Prod.fst hnod
  rw [List.perm_ext_iff_of_nodup hcnod honod]
  intro x
  constructor
  · intro hx
    simp only [canonicalOpts, List.mem_filterMap] at hx
    obtain ⟨e, _, hfe⟩ := hx
    rcases hl : lookupOpt opts e.code with _ | v
    · rw [hl] at hfe
      simp at hfe
    · rw [hl] at hfe
      simp only [Option.map_some', Option.some.injEq] at hfe
      rw [← hfe]
      exact lookupOpt_mem opts e.code v hl
  · intro hx
    obtain ⟨e, he, hec⟩ := hsub x hx
    have hlx : lookupOpt opts x.1 = some x.2 :=
      lookupOpt_eq_some_of_mem opts hnod x.1 x.2 hx
    simp only [canonicalOpts, List.mem_filterMap]
    refine ⟨e, he, ?_⟩
    rw [hec, hlx]
    rfl

/-- C1: decoding the encoding of a packet whose options all use supported
value types with representative values yields the packet again, with the
option list canonicalized to the `OptionSpec` table's declared order (a
permutation of the original option list). -/
theorem decode_encode_roundtrip (table : OptTable) (p : Packet)
    (ht : WfTable table) (hh : WfHeader p.hdr) (ho : WfOptions table p.options) :
    decode table (encode table p) =
      .ok ⟨p.hdr, canonicalOpts table p.options⟩ ∧
    (canonicalOpts table p.options).Perm p.options := by
  have hfind : ∀ e ∈ table, findEntry table e.code = some e :=
    fun e he => findEntry_self table ht.nodup e he
  have hval : ∀ e ∈ table, ∀ v, lookupOpt p.options e.code = some v →
      validValue e.type v = true := by
    intro e he v hl
    obtain ⟨e', hfe', hv'⟩ := ho.supported (e.code, v) (lookupOpt_mem _ _ _ hl)
    have : e' = e := by
      have h1 := hfind e he
      rw [h1] at hfe'
      exact (Option.some.inj hfe').symm
    rw [← this]
    exact hv'
  constructor
  · have hlen : 240 ≤ (encode table p).length := by
      unfold encode
      rw [List.length_append, length_serializeHeader p.hdr hh]
      simp [magicCookie]
      omega
    have hrest : (decodeHeader (encode table p)).2 =
        magicCookie ++ (encodeOptions table p.options ++ [255]) := by
      unfold encode
      rw [decodeHeader_serializeHeader p.hdr _ hh]
    have hhdr : (decodeHeader (encode table p)).1 = p.hdr := by
      unfold encode
      rw [decodeHeader_serializeHeader p.hdr _ hh]
    unfold decode
    rw [if_neg (by omega)]
    rw [hrest, hhdr]
    rw [List.take_left' (show magicCookie.length = 4 from rfl)]
    rw [if_pos rfl]
    rw [List.drop_left' (show magicCookie.length = 4 from rfl)]
    rw [parseOpts_encodeOptions table p.options ht]
    dsimp only
    rw [mergeDups_emittedTriples table p.options ht.nodup]
    rw [decodeMerged_serialized table p.options table hfind hval]
  · apply canonicalOpts_perm table p.options ht.nodup ho.nodup
    intro q hq
    obtain ⟨e, hfe, _⟩ := ho.supported q hq
    obtain ⟨he, hec⟩ := findEntry_mem_code table q.1 e hfe
    exact ⟨e, he, hec⟩

/-- A small concrete option table used to evaluate the codec theorems. -/
def sampleTable : OptTable :=
  [ { code := 1, name := "netmask", type := .IP },
    { code := 6, name := "dns", type := .IPs },
    { code := 12, name := "hostname", type := .ASCII },
    { code := 51, name := "leaseTime", type := .UInt32 },
    { code := 53, name := "dhcpMessageType", type := .UInt8 } ]

/-- A concrete packet whose options are deliberately out of table order. -/
def samplePacket : Packet :=
  { hdr := { op := 1, htype := 1, hops := 0, xid := 305419896, secs := 0,
             flags := 0, ciaddr := 0, yiaddr := 3232235826,
             siaddr := 3232235777, giaddr := 0,
             chaddr := [17, 34, 51, 68, 85, 102],
             sname := List.replicate 64 0, file := List.replicate 128 0 },
    options := [(53, .u8 2), (1, .ip ⟨255, 255, 255, 0⟩),
                (51, .u32 86400), (12, .ascii "host")] }

/-- A decidable check implying `WfOptions`. -/
theorem wfOptions_of_check (table : OptTable) (opts : List (Nat × OptValue))
    (hnod : (opts.map Prod.fst).Nodup)
    (hchk : opts.all (fun p =>
      match findEntry table p.1 with
      | some e => validValue e.type p.2
      | none => false) = true) : WfOptions table opts := by
  refine ⟨hnod, ?_⟩
  intro p hp
  have hcp := (List.all_eq_true.mp hchk) p hp
  rcases hf : findEntry table p.1 with _ | e
  · rw [hf] at hcp
    simp at hcp
  · rw [hf] at hcp
    exact ⟨e, rfl, hcp⟩

/-- Witness: the round-trip theorem applied at a concrete table and packet,
with every hypothesis discharged by evaluation. -/
theorem decode_encode_roundtrip_witness :
    decode sampleTable (encode sampleTable samplePacket) =
      .ok ⟨samplePacket.hdr, canonicalOpts sampleTable samplePacket.options⟩ ∧
    (canonicalOpts sampleTable samplePacket.options).Perm
      samplePacket.options :=
  decode_encode_roundtrip sampleTable samplePacket
    ⟨by decide, by decide, by decide⟩
    ⟨by decide, by decide, by decide, by decide, by decide, by decide,
      by decide, by decide, by decide, by decide, by decide, by decide,
      by decide⟩
    (wfOptions_of_check sampleTable samplePacket.options (by decide) (by decide))

/-- A client hardware address, as the 6 chaddr bytes. -/
abbrev Mac := List Nat

/-- Lifecycle states of a live lease entry.  A FREE address has no entry:
per the spec a lease is destroyed (state → FREE) on RELEASE, on the expiry
sweep, or on admin reclaim, so RELEASED/EXPIRED entries leave the map. -/
inductive LeaseState
  | offered
  | bound
deriving Repr, DecidableEq

/-- Modelled from the spec: a `Lease` record
{mac, ip, state, offeredAt/expiresAt, clientId}. -/
structure Lease where
  mac : Mac
  ip : Nat
  state : LeaseState
  offeredAt : Nat
  expiresAt : Nat
  clientId : Option String := none
deriving Repr, DecidableEq

/-- Modelled from the spec: the pool's configuration — inclusive address
range, static mac→ip table (highest precedence), the `randomIP` flag
(default false = sequential), and the lease time (default 86400 s). -/
structure PoolCfg where
  rangeLo : Nat
  rangeHi : Nat
  statics : List (Mac × Nat) := []
  randomIP : Bool := false
  leaseTime : Nat := 86400
deriving Repr, DecidableEq

/-- Modelled from the spec: pool state — the live leases plus addresses
quarantined by DECLINE, excluded from allocation until cleared. -/
structure PoolState where
  leases : List Lease := []
  quarantined : List Nat := []
deriving Repr, DecidableEq

/-- Failures of the pool operations. -/
inductive PoolError
  | PoolExhausted
  | Rejected
deriving Repr, DecidableEq

/-- The pool with no lease and no quarantined address. -/
def emptyPool : PoolState := {}

/-- The static binding for a mac, if configured. -/
def staticFor (cfg : PoolCfg) (mac : Mac) : Option Nat :=
  (cfg.statics.find? (fun p => p.1 == mac)).map Prod.snd

/-- Every statically bound address. -/
def staticIps (cfg : PoolCfg) : List Nat := cfg.statics.map Prod.snd

/-- The lease a mac currently holds, if any (`byMac`). -/
def leaseFor (st : PoolState) (mac : Mac) : Option Lease :=
  st.leases.find? (fun l => l.mac == mac)

/-- The lease on an ip, if any (`leases`). -/
def leaseAt (st : PoolState) (ip : Nat) : Option Lease :=
  st.leases.find? (fun l => l.ip == ip)

/-- Whether an address lies in the configured inclusive range. -/
def inRange (cfg : PoolCfg) (ip : Nat) : Bool :=
  decide (cfg.rangeLo ≤ ip) && decide (ip ≤ cfg.rangeHi)

/-- Whether an address is FREE: no lease, not statically bound (static
bindings are never placed in the free set), not quarantined. -/
def isFree (cfg : PoolCfg) (st : PoolState) (ip : Nat) : Bool :=
  (leaseAt st ip).isNone && decide (ip ∉ staticIps cfg) &&
    decide (ip ∉ st.quarantined)

/-- The addresses of the configured range, ascending. -/
def rangeList (cfg : PoolCfg) : List Nat :=
  List.range' cfg.rangeLo (cfg.rangeHi + 1 - cfg.rangeLo)

/-- The FREE addresses of the range, ascending. -/
def freeList (cfg : PoolCfg) (st : PoolState) : List Nat :=
  (rangeList cfg).filter (isFree cfg st)

/-- A fresh OFFERED lease created at `now`. -/
def mkOffer (cfg : PoolCfg) (mac : Mac) (ip now : Nat) : Lease :=
  { mac := mac, ip := ip, state := .offered, offeredAt := now,
    expiresAt := now + cfg.leaseTime }

/-- Reserve `ip` for `mac`: insert a fresh OFFERED lease, dropping any
previous lease of the same mac (at most one active lease per mac). -/
def offerIp (cfg : PoolCfg) (st : PoolState) (now : Nat) (mac : Mac)
    (ip : Nat) : Except PoolError Nat × PoolState :=
  let ls := mkOffer cfg mac ip now :: st.leases.filter (fun l => l.mac != mac)
  (.ok ip, { st with leases := ls })

/-- Select from the free set: the lowest-numbered address in sequential
mode, the `pick`-drawn one in random mode; `PoolExhausted` when none
remains. -/
def chooseFree (cfg : PoolCfg) (st : PoolState) (now : Nat) (mac : Mac)
    (pick : List Nat → Nat) : Except PoolError Nat × PoolState :=
  match freeList cfg st with
  | [] => (.error .PoolExhausted, st)
  | x :: xs =>
    offerIp cfg st now mac
      (if cfg.randomIP then
        (x :: xs).get ⟨pick (x :: xs) % (x :: xs).length,
          Nat.mod_lt _ (Nat.succ_pos xs.length)⟩
       else x)

/-- Allocation for a mac with no static binding and no sticky lease. -/
def allocateNew (cfg : PoolCfg) (st : PoolState) (now : Nat) (mac : Mac)
    (reqIp : Option Nat) (pick : List Nat → Nat) :
    Except PoolError Nat × PoolState :=
  match reqIp with
  | some r =>
    if inRange cfg r && isFree cfg st r then offerIp cfg st now mac r
    else chooseFree cfg st now mac pick
  | none => chooseFree cfg st now mac pick

/-- Modelled from the spec: `allocate(mac, requestedIp?) → ip |
PoolExhausted`.  A static binding is returned unconditionally; a held
non-expired lease is sticky; a requested in-range FREE address is reserved;
otherwise the lowest FREE address (sequential mode) or a drawn FREE address
(random mode); fails when no FREE address remains. -/
def allocate (cfg : PoolCfg) (st : PoolState) (now : Nat) (mac : Mac)
    (reqIp : Option Nat) (pick : List Nat → Nat) :
    Except PoolError Nat × PoolState :=
  match staticFor cfg mac with
  | some ip => (.ok ip, st)
  | none =>
    match leaseFor st mac with
    | some l =>
      if now ≤ l.expiresAt then (.ok l.ip, st)
      else allocateNew cfg st now mac reqIp pick
    | none => allocateNew cfg st now mac reqIp pick

/-- The BOUND form of a confirmed lease: `expiresAt = now + leaseTime`. -/
def rebind (cfg : PoolCfg) (now : Nat) (l : Lease) : Lease :=
  { l with state := .bound, expiresAt := now + cfg.leaseTime }

/-- The lease list after confirming the lease `l` held on `ip`. -/
def confirmedLeases (cfg : PoolCfg) (st : PoolState) (now ip : Nat)
    (l : Lease) : List Lease :=
  st.leases.map (fun l2 => if l2.ip == ip then rebind cfg now l else l2)

/-- Modelled from the spec: `confirm(mac, ip) → Lease | Rejected` promotes
an OFFERED lease matching (mac, ip) and not expired to BOUND with
`expiresAt = now + leaseTime`; absent, expired or mismatched offers are
`Rejected`. -/
def confirm (cfg : PoolCfg) (st : PoolState) (now : Nat) (mac : Mac)
    (ip : Nat) : Except PoolError Lease × PoolState :=
  match leaseAt st ip with
  | some l =>
    if l.mac == mac && (l.state == LeaseState.offered) &&
        decide (now ≤ l.expiresAt) then
      (.ok (rebind cfg now l),
        { st with leases := confirmedLeases cfg st now ip l })
    else (.error .Rejected, st)
  | none => (.error .Rejected, st)

/-- Modelled from the spec: `release(mac, ip)` frees a BOUND lease of that
mac immediately, independent of its expiry time. -/
def release (st : PoolState) (mac : Mac) (ip : Nat) : PoolState :=
  let ls := st.leases.filter
    (fun l => !(l.mac == mac && l.ip == ip && (l.state == LeaseState.bound)))
  { st with leases := ls }

/-- Modelled from the spec: `sweepExpired(now)` frees every lease whose
`expiresAt < now`. -/
def sweepExpired (st : PoolState) (now : Nat) : PoolState :=
  { st with leases := st.leases.filter (fun l => !decide (l.expiresAt < now)) }

/-- One call of an allocate/confirm/release sequence. -/
inductive PoolOp
  | alloc (now : Nat) (mac : Mac) (reqIp : Option Nat) (pick : List Nat → Nat)
  | confirmOp (now : Nat) (mac : Mac) (ip : Nat)
  | releaseOp (mac : Mac) (ip : Nat)

/-- Apply one call, keeping the resulting pool state. -/
def applyOp (cfg : PoolCfg) (st : PoolState) : PoolOp → PoolState
  | .alloc now mac reqIp pick => (allocate cfg st now mac reqIp pick).2
  | .confirmOp now mac ip => (confirm cfg st now mac ip).2
  | .releaseOp mac ip => release st mac ip

/-- Run a call sequence from the empty pool. -/
def runOps (cfg : PoolCfg) (ops : List PoolOp) : PoolState :=
  ops.foldl (applyOp cfg) emptyPool

/-- The pool invariant: the live leases have pairwise distinct ips and
pairwise distinct macs. -/
def PoolInv (st : PoolState) : Prop :=
  (st.leases.map Lease.ip).Nodup ∧ (st.leases.map Lease.mac).Nodup

theorem isFree_not_leased (cfg : PoolCfg) (st : PoolState) (ip : Nat)
    (h : isFree cfg st ip = true) : ∀ l ∈ st.leases, l.ip ≠ ip := by
  unfold isFree at h
  simp only [Bool.and_eq_true, Option.isNone_iff_eq_none] at h
  have hnone := h.1.1
  unfold leaseAt at hnone
  rw [List.find?_eq_none] at hnone
  intro l hl
  have := hnone l hl
  simpa using this

theorem mem_freeList_isFree (cfg : PoolCfg) (st : PoolState) (ip : Nat)
    (h : ip ∈ freeList cfg st) : isFree cfg st ip = true :=
  (List.mem_filter.mp h).2

theorem PoolInv_offerIp (cfg : PoolCfg) (st : PoolState) (now : Nat)
    (mac : Mac) (ip : Nat) (hinv : PoolInv st)
    (hfree : ∀ l ∈ st.leases, l.ip ≠ ip) :
    PoolInv (offerIp cfg st now mac ip).2 := by
  obtain ⟨hip, hmac⟩ := hinv
  have hsub : List.Sublist (st.leases.filter (fun l => l.mac != mac))
      st.leases := List.filter_sublist _
  constructor
  · simp only [offerIp, List.map_cons, List.nodup_cons, mkOffer]
    constructor
    · intro hmem
      simp only [List.mem_map] at hmem
      obtain ⟨l, hl, hlip⟩ := hmem
      exact hfree l (hsub.mem hl) hlip
    · exact (hip).sublist (hsub.map Lease.ip)
  · simp only [offerIp, List.map_cons, List.nodup_cons, mkOffer]
    constructor
    · intro hmem
      simp only [List.mem_map] at hmem
      obtain ⟨l, hl, hlmac⟩ := hmem
      have := (List.mem_filter.mp hl).2
      simp only [bne_iff_ne, ne_eq] at this
      exact this hlmac
    · exact (hmac).sublist (hsub.map Lease.mac)

theorem PoolInv_chooseFree (cfg : PoolCfg) (st : PoolState) (now : Nat)
    (mac : Mac) (pick : List Nat → Nat) (hinv : PoolInv st) :
    PoolInv (chooseFree cfg st now mac pick).2 := by
  rcases hfl : freeList cfg st with _ | ⟨x, xs⟩
  · simp only [chooseFree, hfl]
    exact hinv
  · simp only [chooseFree, hfl]
    apply PoolInv_offerIp cfg st now mac _ hinv
    intro l hl
    have hchosen : (if cfg.randomIP then
        (x :: xs).get ⟨pick (x :: xs) % (x :: xs).length,
          Nat.mod_lt _ (Nat.succ_pos xs.length)⟩
       else x) ∈ freeList cfg st := by
      rw [hfl]
      split
      · exact List.get_mem _ _ _
      · exact List.mem_cons_self x xs
    have := mem_freeList_isFree cfg st _ hchosen
    exact fun hEq => isFree_not_leased cfg st _ this l hl hEq

theorem PoolInv_allocateNew (cfg : PoolCfg) (st : PoolState) (now : Nat)
    (mac : Mac) (reqIp : Option Nat) (pick : List Nat → Nat)
    (hinv : PoolInv st) :
    PoolInv (allocateNew cfg st now mac reqIp pick).2 := by
  rcases reqIp with _ | r
  · exact PoolInv_chooseFree cfg st now mac pick hinv
  · simp only [allocateNew]
    split
    · rename_i hc
      have hfree : isFree cfg st r = true := by
        simp only [Bool.and_eq_true] at hc
        exact hc.2
      exact PoolInv_offerIp cfg st now mac r hinv
        (fun l hl hEq => isFree_not_leased cfg st r hfree l hl hEq)
    · exact PoolInv_chooseFree cfg st now mac pick hinv

theorem PoolInv_allocate (cfg : PoolCfg) (st : PoolState) (now : Nat)
    (mac : Mac) (reqIp : Option Nat) (pick : List Nat → Nat)
    (hinv : PoolInv st) :
    PoolInv (allocate cfg st now mac reqIp pick).2 := by
  unfold allocate
  rcases staticFor cfg mac with _ | sip
  · dsimp only
    rcases leaseFor st mac with _ | l
    · dsimp only
      exact PoolInv_allocateNew cfg st now mac reqIp pick hinv
    · dsimp only
      split
      · exact hinv
      · exact PoolInv_allocateNew cfg st now mac reqIp pick hinv
  · dsimp only
    exact hinv

theorem PoolInv_confirm (cfg : PoolCfg) (st : PoolState) (now : Nat)
    (mac : Mac) (ip : Nat) (hinv : PoolInv st) :
    PoolInv (confirm cfg st now mac ip).2 := by
  unfold confirm
  rcases hat : leaseAt st ip with _ | l
  · exact hinv
  · have hmem : l ∈ st.leases := List.mem_of_find?_eq_some hat
    have hlip : l.ip = ip := by
      have := List.find?_some hat
      simpa using this
    dsimp only
    split
    · obtain ⟨hip, hmac⟩ := hinv
      have hinj := List.inj_on_of_nodup_map hip
      have hmapip : (st.leases.map (fun l2 =>
          if l2.ip == ip then rebind cfg now l else l2)).map Lease.ip =
          st.leases.map Lease.ip := by
        rw [List.map_map]
        apply List.map_congr_left
        intro l2 hl2
        simp only [Function.comp_apply]
        split
        · rename_i hEq
          simp only [beq_iff_eq] at hEq
          simp [hEq, hlip, rebind]
        · rfl
      have hmapmac : (st.leases.map (fun l2 =>
          if l2.ip == ip then rebind cfg now l else l2)).map Lease.mac =
          st.leases.map Lease.mac := by
        rw [List.map_map]
        apply List.map_congr_left
        intro l2 hl2
        simp only [Function.comp_apply]
        split
        · rename_i hEq
          simp only [beq_iff_eq] at hEq
          have hl2l : l2 = l := hinj hl2 hmem (by rw [hEq, hlip])
          rw [hl2l]
          simp [rebind]
        · rfl
      constructor
      · show ((confirmedLeases cfg st now ip l).map Lease.ip).Nodup
        unfold confirmedLeases
        rw [hmapip]
        exact hip
      · show ((confirmedLeases cfg st now ip l).map Lease.mac).Nodup
        unfold confirmedLeases
        rw [hmapmac]
        exact hmac
    · exact hinv

theorem PoolInv_release (st : PoolState) (mac : Mac) (ip : Nat)
    (hinv : PoolInv st) : PoolInv (release st mac ip) := by
  obtain ⟨hip, hmac⟩ := hinv
  have hsub : List.Sublist (release st mac ip).leases st.leases :=
    List.filter_sublist _
  exact ⟨hip.sublist (hsub.map Lease.ip), hmac.sublist (hsub.map Lease.mac)⟩

theorem PoolInv_applyOp (cfg : PoolCfg) (st : PoolState) (op : PoolOp)
    (hinv : PoolInv st) : PoolInv (applyOp cfg st op) := by
  cases op with
  | alloc now mac reqIp pick => exact PoolInv_allocate cfg st now mac reqIp pick hinv
  | confirmOp now mac ip => exact PoolInv_confirm cfg st now mac ip hinv
  | releaseOp mac ip => exact PoolInv_release st mac ip hinv

theorem PoolInv_runOps (cfg : PoolCfg) (ops : List PoolOp) :
    PoolInv (runOps cfg ops) := by
  have H : ∀ (l : List PoolOp) (st : PoolState), PoolInv st →
      PoolInv (l.foldl (applyOp cfg) st) := by
    intro l
    induction l with
    | nil => intro st h; exact h
    | cons op rest ih =>
      intro st h
      exact ih _ (PoolInv_applyOp cfg st op h)
  exact H ops emptyPool ⟨List.nodup_nil, List.nodup_nil⟩

/-- C2: after every prefix of any allocate/confirm/release call sequence run
from the empty pool, two leases on the same ip have the same mac (so no two
distinct macs share an ip), and two BOUND leases on the same ip are the same
lease. -/
theorem pool_no_ip_sharing (cfg : PoolCfg) (ops : List PoolOp) :
    (∀ l1 ∈ (runOps cfg ops).leases, ∀ l2 ∈ (runOps cfg ops).leases,
      l1.ip = l2.ip → l1.mac = l2.mac) ∧
    (∀ l1 ∈ (runOps cfg ops).leases, ∀ l2 ∈ (runOps cfg ops).leases,
      l1.state = .bound → l2.state = .bound → l1.ip = l2.ip → l1 = l2) := by
  have hinv := PoolInv_runOps cfg ops
  have hinj := List.inj_on_of_nodup_map hinv.1
  constructor
  · intro l1 h1 l2 h2 hEq
    rw [hinj h1 h2 hEq]
  · intro l1 h1 l2 h2 _ _ hEq
    exact hinj h1 h2 hEq

/-- C3: a mac with a static binding always receives that ip from `allocate`
(pool untouched), regardless of pool occupancy, requested ip or the
`randomIP` mode, and a statically bound ip is never in any pool state's
free set. -/
theorem allocate_static (cfg : PoolCfg) (st : PoolState) (now : Nat)
    (mac : Mac) (reqIp : Option Nat) (pick : List Nat → Nat) (ip : Nat)
    (h : staticFor cfg mac = some ip) :
    allocate cfg st now mac reqIp pick = (.ok ip, st) ∧
    ∀ st2 : PoolState, ip ∉ freeList cfg st2 := by
  constructor
  · unfold allocate
    rw [h]
  · intro st2 hmem
    have hfree := mem_freeList_isFree cfg st2 ip hmem
    unfold isFree at hfree
    simp only [Bool.and_eq_true, decide_eq_true_eq] at hfree
    apply hfree.1.2
    unfold staticFor at h
    rcases hf : cfg.statics.find? (fun p => p.1 == mac) with _ | q
    · rw [hf] at h
      simp at h
    · rw [hf] at h
      have hq : q.2 = ip := by simpa using h
      have hqmem := List.mem_of_find?_eq_some hf
      rw [← hq]
      exact List.mem_map_of_mem Prod.snd hqmem

theorem allocate_reduces (cfg : PoolCfg) (st : PoolState) (now : Nat)
    (mac : Mac) (reqIp : Option Nat) (pick : List Nat → Nat)
    (hstat : staticFor cfg mac = none)
    (hlease : ∀ l, leaseFor st mac = some l → l.expiresAt < now) :
    allocate cfg st now mac reqIp pick =
      allocateNew cfg st now mac reqIp pick := by
  unfold allocate
  rw [hstat]
  dsimp only
  rcases hl : leaseFor st mac with _ | l
  · rfl
  · dsimp only
    have := hlease l hl
    rw [if_neg (by omega)]

theorem mem_freeList_of (cfg : PoolCfg) (st : PoolState) (r : Nat)
    (hin : inRange cfg r = true) (hfree : isFree cfg st r = true) :
    r ∈ freeList cfg st := by
  unfold freeList
  rw [List.mem_filter]
  refine ⟨?_, hfree⟩
  unfold inRange at hin
  simp only [Bool.and_eq_true, decide_eq_true_eq] at hin
  unfold rangeList
  rw [List.mem_range'_1]
  omega

/-- C4: for a mac with no static binding and no non-expired lease — a
requested in-range FREE ip is reserved and returned; otherwise in
sequential mode (`randomIP = false`) the lowest-numbered FREE address of the
range is reserved and returned; and allocate fails with `PoolExhausted`
exactly when no FREE address remains. -/
theorem allocate_fresh (cfg : PoolCfg) (st : PoolState) (now : Nat)
    (mac : Mac) (reqIp : Option Nat) (pick : List Nat → Nat)
    (hstat : staticFor cfg mac = none)
    (hlease : ∀ l, leaseFor st mac = some l → l.expiresAt < now) :
    (∀ r, reqIp = some r → inRange cfg r = true → isFree cfg st r = true →
      allocate cfg st now mac reqIp pick = offerIp cfg st now mac r) ∧
    (cfg.randomIP = false →
      (reqIp = none ∨
        ∃ r, reqIp = some r ∧ (inRange cfg r && isFree cfg st r) = false) →
      ∀ x xs, freeList cfg st = x :: xs →
      allocate cfg st now mac reqIp pick = offerIp cfg st now mac x ∧
      ∀ y ∈ freeList cfg st, x ≤ y) ∧
    ((allocate cfg st now mac reqIp pick).1 = .error .PoolExhausted ↔
      freeList cfg st = []) := by
  have hred := allocate_reduces cfg st now mac reqIp pick hstat hlease
  refine ⟨?_, ?_, ?_⟩
  · intro r hreq hin hfree
    subst hreq
    rw [hred]
    unfold allocateNew
    dsimp only
    rw [if_pos (by rw [hin, hfree]; rfl)]
  · intro hseq hbad x xs hfl
    have hmin : ∀ y ∈ freeList cfg st, x ≤ y := by
      have hpw : (freeList cfg st).Pairwise (· < ·) :=
        List.Pairwise.sublist (List.filter_sublist _)
          (List.pairwise_lt_range' _ _)
      rw [hfl, List.pairwise_cons] at hpw
      intro y hy
      rw [hfl] at hy
      rcases List.mem_cons.mp hy with rfl | hy2
      · exact Nat.le_refl y
      · exact Nat.le_of_lt (hpw.1 y hy2)
    refine ⟨?_, hmin⟩
    rw [hred]
    unfold allocateNew
    rcases hbad with rfl | ⟨r, rfl, hbadr⟩
    · dsimp only
      unfold chooseFree
      rw [hfl]
      dsimp only
      rw [if_neg (by simp [hseq])]
    · dsimp only
      rw [if_neg (by simp [hbadr])]
      unfold chooseFree
      rw [hfl]
      dsimp only
      rw [if_neg (by simp [hseq])]
  · rw [hred]
    unfold allocateNew
    rcases reqIp with _ | r
    · dsimp only
      unfold chooseFree
      rcases hfl : freeList cfg st with _ | ⟨x, xs⟩
      · simp
      · simp [offerIp]
    · dsimp only
      split
      · rename_i hc
        constructor
        · intro habs
          simp [offerIp] at habs
        · intro hfl
          exfalso
          simp only [Bool.and_eq_true] at hc
          have hmem := mem_freeList_of cfg st r hc.1 hc.2
          rw [hfl] at hmem
          exact absurd hmem (List.not_mem_nil r)
      · unfold chooseFree
        rcases hfl : freeList cfg st with _ | ⟨x, xs⟩
        · simp
        · simp [offerIp]

/-- A pool with one static binding, for evaluating the static-precedence
theorem. -/
def c3cfg : PoolCfg :=
  { rangeLo := 10, rangeHi := 12, statics := [([1, 2, 3, 4, 5, 6], 50)] }

/-- A small dynamic-only pool configuration. -/
def c4cfg : PoolCfg := { rangeLo := 10, rangeHi := 12 }

/-- A concrete client hardware address. -/
def c4mac : Mac := [0, 1, 2, 3, 4, 5]

/-- Witness: static precedence evaluated at a concrete configuration. -/
theorem allocate_static_witness :
    allocate c3cfg emptyPool 0 [1, 2, 3, 4, 5, 6] (some 11) (fun _ => 0) =
      (.ok 50, emptyPool) ∧
    ∀ st2 : PoolState, 50 ∉ freeList c3cfg st2 :=
  allocate_static c3cfg emptyPool 0 [1, 2, 3, 4, 5, 6] (some 11)
    (fun _ => 0) 50 (by decide)

/-- Witness: fresh allocation evaluated at a concrete empty pool. -/
theorem allocate_fresh_witness :
    (∀ r, (some 11 : Option Nat) = some r → inRange c4cfg r = true →
      isFree c4cfg emptyPool r = true →
      allocate c4cfg emptyPool 5 c4mac (some 11) (fun _ => 0) =
        offerIp c4cfg emptyPool 5 c4mac r) ∧
    (c4cfg.randomIP = false →
      ((some 11 : Option Nat) = none ∨
        ∃ r, (some 11 : Option Nat) = some r ∧
          (inRange c4cfg r && isFree c4cfg emptyPool r) = false) →
      ∀ x xs, freeList c4cfg emptyPool = x :: xs →
      allocate c4cfg emptyPool 5 c4mac (some 11) (fun _ => 0) =
        offerIp c4cfg emptyPool 5 c4mac x ∧
      ∀ y ∈ freeList c4cfg emptyPool, x ≤ y) ∧
    ((allocate c4cfg emptyPool 5 c4mac (some 11) (fun _ => 0)).1 =
        .error .PoolExhausted ↔ freeList c4cfg emptyPool = []) :=
  allocate_fresh c4cfg emptyPool 5 c4mac (some 11) (fun _ => 0) (by decide)
    (fun _ h => Option.noConfusion h)

/-- The DHCP message-type option values, as exported by `dhcp.d.ts`
(`DHCPDISCOVER` .. `DHCPINFORM`, enumerated 1–8). -/
def DHCPDISCOVER : Nat := 1

def DHCPOFFER : Nat := 2

def DHCPREQUEST : Nat := 3

def DHCPDECLINE : Nat := 4

def DHCPACK : Nat := 5

def DHCPNAK : Nat := 6

def DHCPRELEASE : Nat := 7

def DHCPINFORM : Nat := 8

/-- The 32-bit value of a four-byte address. -/
def ip4ToNat (a : Ip4) : Nat :=
  ((a.b0 * 256 + a.b1) * 256 + a.b2) * 256 + a.b3

/-- A packet's single-byte option value for a code (the message type lives
at code 53). -/
def getOptU8 (p : Packet) (c : Nat) : Option Nat :=
  match lookupOpt p.options c with
  | some (.u8 n) => some n
  | _ => none

/-- A packet's IP-valued option for a code, as a 32-bit value (requested ip
at code 50, server identifier at code 54). -/
def getOptIpNat (p : Packet) (c : Nat) : Option Nat :=
  match lookupOpt p.options c with
  | some (.ip a) => some (ip4ToNat a)
  | _ => none

/-- Modelled from the spec: the configuration ServerProtocol consumes — the
pool configuration and the server's own address (emitted as the
server-identifier option of every response). -/
structure ServerCfg where
  pool : PoolCfg
  serverId : Nat
deriving Repr, DecidableEq

/-- Per-xid server transaction states (§4.3): `AWAITING_REQUEST` after an
OFFER, `BOUND` after an ACK (terminal). -/
inductive TransState
  | awaitingRequest
  | boundTrans
deriving Repr, DecidableEq

/-- Modelled from the spec: server state — the lease pool plus the ephemeral
per-xid transaction contexts. -/
structure ServerState where
  pool : PoolState := {}
  trans : List (Nat × TransState) := []
deriving Repr, DecidableEq

/-- An outgoing server message: message type plus the fields every response
copies from the triggering request (`xid`, `chaddr`, `giaddr`), the assigned
`yiaddr`, and the server-identifier option. -/
structure Response where
  mtype : Nat
  xid : Nat
  chaddr : List Nat
  giaddr : Nat
  yiaddr : Nat
  serverId : Nat
deriving Repr, DecidableEq

/-- Build a response copying `xid`, `chaddr` and `giaddr` from the request. -/
def mkResponse (t : Nat) (req : Packet) (yiaddr sid : Nat) : Response :=
  { mtype := t, xid := req.hdr.xid, chaddr := req.hdr.chaddr,
    giaddr := req.hdr.giaddr, yiaddr := yiaddr, serverId := sid }

/-- Record a transaction context for an xid, replacing any previous one. -/
def setTrans (trans : List (Nat × TransState)) (xid : Nat) (s : TransState) :
    List (Nat × TransState) :=
  (xid, s) :: trans.filter (fun q => q.1 != xid)

/-- Quarantine a DECLINEd address: drop its lease and exclude it from
future allocation until administratively cleared. -/
def quarantine (st : PoolState) (ip : Nat) : PoolState :=
  { leases := st.leases.filter (fun l => l.ip != ip),
    quarantined := ip :: st.quarantined }

/-- Extend a bound lease's expiry on the renew path. -/
def extendLease (cfg : PoolCfg) (st : PoolState) (now ip : Nat) : PoolState :=
  let ls := st.leases.map
    (fun l => if l.ip == ip then { l with expiresAt := now + cfg.leaseTime }
              else l)
  { st with leases := ls }

/-- Modelled from the spec: the server state-machine table (§4.3).
DISCOVER allocates and OFFERs (silent drop on `PoolExhausted`); REQUEST
carrying our server identifier confirms and answers ACK, or NAK when
confirm rejects; REQUEST for another server is ignored; REQUEST without a
server identifier and with `ciaddr` set extends a lease BOUND to this mac
(ACK) or answers NAK; DECLINE quarantines an ip OFFERED/BOUND to the mac;
RELEASE frees; INFORM answers an ACK with no address assignment. -/
def handleMessage (cfg : ServerCfg) (st : ServerState) (now : Nat)
    (pkt : Packet) (pick : List Nat → Nat) : ServerState × List Response :=
  let mac := pkt.hdr.chaddr
  match getOptU8 pkt 53 with
  | none => (st, [])
  | some t =>
    if t = DHCPDISCOVER then
      match allocate cfg.pool st.pool now mac (getOptIpNat pkt 50) pick with
      | (.ok ip, pool2) =>
        ({ pool := pool2,
           trans := setTrans st.trans pkt.hdr.xid .awaitingRequest },
         [mkResponse DHCPOFFER pkt ip cfg.serverId])
      | (.error _, pool2) => ({ st with pool := pool2 }, [])
    else if t = DHCPREQUEST then
      match getOptIpNat pkt 54 with
      | some sid =>
        if sid = cfg.serverId then
          let rip := (getOptIpNat pkt 50).getD pkt.hdr.ciaddr
          match confirm cfg.pool st.pool now mac rip with
          | (.ok _, pool2) =>
            ({ pool := pool2,
               trans := setTrans st.trans pkt.hdr.xid .boundTrans },
             [mkResponse DHCPACK pkt rip cfg.serverId])
          | (.error _, pool2) =>
            ({ st with pool := pool2 },
             [mkResponse DHCPNAK pkt 0 cfg.serverId])
        else (st, [])
      | none =>
        match leaseAt st.pool pkt.hdr.ciaddr with
        | some l =>
          if l.mac == mac && (l.state == LeaseState.bound) then
            ({ st with pool := extendLease cfg.pool st.pool now pkt.hdr.ciaddr },
             [mkResponse DHCPACK pkt pkt.hdr.ciaddr cfg.serverId])
          else (st, [mkResponse DHCPNAK pkt 0 cfg.serverId])
        | none => (st, [mkResponse DHCPNAK pkt 0 cfg.serverId])
    else if t = DHCPDECLINE then
      let dip := (getOptIpNat pkt 50).getD pkt.hdr.ciaddr
      match leaseAt st.pool dip with
      | some l =>
        if l.mac == mac then ({ st with pool := quarantine st.pool dip }, [])
        else (st, [])
      | none => (st, [])
    else if t = DHCPRELEASE then
      ({ st with pool := release st.pool mac pkt.hdr.ciaddr }, [])
    else if t = DHCPINFORM then
      (st, [mkResponse DHCPACK pkt 0 cfg.serverId])
    else (st, [])

/-- Modelled from the spec: one inbound datagram processed to completion —
decode, observe, state transition, optional replies.  A `DecodeError` is
dropped silently: no reply, no state change.  A listen-only server decodes
and observes but never sends and never mutates. -/
def handleDatagram (cfg : ServerCfg) (listenOnly : Bool) (table : OptTable)
    (st : ServerState) (now : Nat) (bytes : List Nat)
    (pick : List Nat → Nat) : ServerState × List Response × Option Packet :=
  match decode table bytes with
  | .error _ => (st, [], none)
  | .ok pkt =>
    if listenOnly then (st, [], some pkt)
    else
      let r := handleMessage cfg st now pkt pick
      (r.1, r.2, some pkt)

/-- The `Server` constructor surface of `dhcp.d.ts`: a configuration and the
optional `listenOnly` flag. -/
structure Server where
  cfg : ServerCfg
  listenOnly : Bool
deriving Repr, DecidableEq

/-- `new Server(config, listenOnly)` with `listenOnly` defaulting to false
(`dhcp.d.ts` line 260). -/
def createServer (cfg : ServerCfg) (listenOnly : Bool := false) : Server :=
  ⟨cfg, listenOnly⟩

/-- The condition under which a REQUEST's (mac, ip) matches an outstanding
non-expired offer. -/
def offerMatches (st : PoolState) (now : Nat) (mac : Mac) (ip : Nat) : Prop :=
  ∃ l, leaseAt st ip = some l ∧ l.mac = mac ∧ l.state = .offered ∧
    now ≤ l.expiresAt

theorem confirm_success (cfg : PoolCfg) (st : PoolState) (now : Nat)
    (mac : Mac) (ip : Nat) (l : Lease) (hat : leaseAt st ip = some l)
    (hmac : l.mac = mac) (hst : l.state = .offered)
    (hexp : now ≤ l.expiresAt) :
    confirm cfg st now mac ip =
      (.ok (rebind cfg now l),
        { st with leases := confirmedLeases cfg st now ip l }) := by
  unfold confirm
  rw [hat]
  dsimp only
  rw [if_pos]
  simp [hmac, hst, hexp]

theorem confirm_rejected (cfg : PoolCfg) (st : PoolState) (now : Nat)
    (mac : Mac) (ip : Nat) (h : ¬ offerMatches st now mac ip) :
    confirm cfg st now mac ip = (.error .Rejected, st) := by
  unfold confirm
  rcases hat : leaseAt st ip with _ | l
  · rfl
  · dsimp only
    rw [if_neg]
    intro hc
    simp only [Bool.and_eq_true, beq_iff_eq, decide_eq_true_eq] at hc
    exact h ⟨l, hat, hc.1.1, hc.1.2, hc.2⟩

theorem handleMessage_request (cfg : ServerCfg) (st : ServerState) (now : Nat)
    (pkt : Packet) (pick : List Nat → Nat) (rip : Nat)
    (hreq : getOptU8 pkt 53 = some DHCPREQUEST)
    (hsid : getOptIpNat pkt 54 = some cfg.serverId)
    (hrip : (getOptIpNat pkt 50).getD pkt.hdr.ciaddr = rip) :
    handleMessage cfg st now pkt pick =
      match confirm cfg.pool st.pool now pkt.hdr.chaddr rip with
      | (.ok _, pool2) =>
        ({ pool := pool2, trans := setTrans st.trans pkt.hdr.xid .boundTrans },
         [mkResponse DHCPACK pkt rip cfg.serverId])
      | (.error _, pool2) =>
        ({ st with pool := pool2 },
         [mkResponse DHCPNAK pkt 0 cfg.serverId]) := by
  unfold handleMessage
  rw [hreq]
  dsimp only
  rw [if_neg (by decide), if_pos rfl, hsid]
  dsimp only
  rw [if_pos rfl, hrip]

/-- C5: `confirm` promotes exactly a matching, non-expired OFFERED lease to
BOUND with `expiresAt = now + leaseTime`; it is `Rejected` exactly when the
offer is absent, expired, or mismatched; and a REQUEST addressed to this
server is answered NAK exactly in the Rejected case, ACK otherwise. -/
theorem confirm_request_spec (cfg : ServerCfg) (st : ServerState) (now : Nat)
    (pkt : Packet) (pick : List Nat → Nat) (rip : Nat)
    (hreq : getOptU8 pkt 53 = some DHCPREQUEST)
    (hsid : getOptIpNat pkt 54 = some cfg.serverId)
    (hrip : (getOptIpNat pkt 50).getD pkt.hdr.ciaddr = rip) :
    (∀ l, leaseAt st.pool rip = some l → l.mac = pkt.hdr.chaddr →
      l.state = .offered → now ≤ l.expiresAt →
      confirm cfg.pool st.pool now pkt.hdr.chaddr rip =
        (.ok (rebind cfg.pool now l),
          { st.pool with leases := confirmedLeases cfg.pool st.pool now rip l }) ∧
      (rebind cfg.pool now l).state = .bound ∧
      (rebind cfg.pool now l).expiresAt = now + cfg.pool.leaseTime) ∧
    ((confirm cfg.pool st.pool now pkt.hdr.chaddr rip).1 = .error .Rejected ↔
      ¬ offerMatches st.pool now pkt.hdr.chaddr rip) ∧
    ((handleMessage cfg st now pkt pick).2 =
        [mkResponse DHCPNAK pkt 0 cfg.serverId] ↔
      ¬ offerMatches st.pool now pkt.hdr.chaddr rip) ∧
    ((handleMessage cfg st now pkt pick).2 =
        [mkResponse DHCPACK pkt rip cfg.serverId] ↔
      offerMatches st.pool now pkt.hdr.chaddr rip) := by
  have hred := handleMessage_request cfg st now pkt pick rip hreq hsid hrip
  have hne : mkResponse DHCPNAK pkt 0 cfg.serverId ≠
      mkResponse DHCPACK pkt rip cfg.serverId := by
    intro hEq
    have : DHCPNAK = DHCPACK := congrArg Response.mtype hEq
    exact absurd this (by decide)
  refine ⟨?_, ?_, ?_, ?_⟩
  · intro l hat hmac hst2 hexp
    exact ⟨confirm_success cfg.pool st.pool now pkt.hdr.chaddr rip l hat
      hmac hst2 hexp, rfl, rfl⟩
  · constructor
    · intro hrej hm
      obtain ⟨l, hat, hmac, hst2, hexp⟩ := hm
      rw [confirm_success cfg.pool st.pool now pkt.hdr.chaddr rip l hat
        hmac hst2 hexp] at hrej
      simp at hrej
    · intro hm
      rw [confirm_rejected cfg.pool st.pool now pkt.hdr.chaddr rip hm]
  · constructor
    · intro hnak hm
      obtain ⟨l, hat, hmac, hst2, hexp⟩ := hm
      rw [hred, confirm_success cfg.pool st.pool now pkt.hdr.chaddr rip l hat
        hmac hst2 hexp] at hnak
      dsimp only at hnak
      have := List.cons.inj hnak
      exact hne this.1.symm
    · intro hm
      rw [hred, confirm_rejected cfg.pool st.pool now pkt.hdr.chaddr rip hm]
  · constructor
    · intro hack
      by_contra hm
      rw [hred, confirm_rejected cfg.pool st.pool now pkt.hdr.chaddr rip hm]
        at hack
      dsimp only at hack
      have := List.cons.inj hack
      exact hne this.1
    · intro hm
      obtain ⟨l, hat, hmac, hst2, hexp⟩ := hm
      rw [hred, confirm_success cfg.pool st.pool now pkt.hdr.chaddr rip l hat
        hmac hst2 hexp]

/-- A concrete server configuration (own address 192.168.1.1). -/
def c5sCfg : ServerCfg := { pool := c4cfg, serverId := 3232235777 }

/-- A concrete REQUEST addressed to `c5sCfg` asking for address 11. -/
def c5pkt : Packet :=
  { hdr := { op := 1, htype := 1, hops := 0, xid := 99, secs := 0, flags := 0,
             ciaddr := 0, yiaddr := 0, siaddr := 0, giaddr := 0,
             chaddr := c4mac, sname := List.replicate 64 0,
             file := List.replicate 128 0 },
    options := [(53, .u8 3), (54, .ip ⟨192, 168, 1, 1⟩),
                (50, .ip ⟨0, 0, 0, 11⟩)] }

/-- A server state holding one outstanding offer of address 11 to `c4mac`. -/
def c5st : ServerState :=
  { pool := { leases := [mkOffer c4cfg c4mac 11 5] }, trans := [] }

/-- Witness: the confirm/NAK-ACK theorem applied at a concrete REQUEST. -/
theorem confirm_request_spec_witness :
    (∀ l, leaseAt c5st.pool 11 = some l → l.mac = c5pkt.hdr.chaddr →
      l.state = .offered → 6 ≤ l.expiresAt →
      confirm c5sCfg.pool c5st.pool 6 c5pkt.hdr.chaddr 11 =
        (.ok (rebind c5sCfg.pool 6 l),
          { c5st.pool with
            leases := confirmedLeases c5sCfg.pool c5st.pool 6 11 l }) ∧
      (rebind c5sCfg.pool 6 l).state = .bound ∧
      (rebind c5sCfg.pool 6 l).expiresAt = 6 + c5sCfg.pool.leaseTime) ∧
    ((confirm c5sCfg.pool c5st.pool 6 c5pkt.hdr.chaddr 11).1 =
        .error .Rejected ↔
      ¬ offerMatches c5st.pool 6 c5pkt.hdr.chaddr 11) ∧
    ((handleMessage c5sCfg c5st 6 c5pkt (fun _ => 0)).2 =
        [mkResponse DHCPNAK c5pkt 0 c5sCfg.serverId] ↔
      ¬ offerMatches c5st.pool 6 c5pkt.hdr.chaddr 11) ∧
    ((handleMessage c5sCfg c5st 6 c5pkt (fun _ => 0)).2 =
        [mkResponse DHCPACK c5pkt 11 c5sCfg.serverId] ↔
      offerMatches c5st.pool 6 c5pkt.hdr.chaddr 11) :=
  confirm_request_spec c5sCfg c5st 6 c5pkt (fun _ => 0) 11 (by decide)
    (by decide) (by decide)

theorem parseOpts_truncated (good : List (Nat × List Nat)) (c : Nat)
    (restcut : List Nat) (hgood : ∀ p ∈ good, p.1 ≠ 0 ∧ p.1 ≠ 255)
    (hc0 : c ≠ 0) (hc255 : c ≠ 255)
    (hcut : restcut = [] ∨ ∃ len v, restcut = len :: v ∧ v.length < len) :
    parseOpts (tlvBytes good ++ (c :: restcut)) = .error .Truncated := by
  have hcutparse : parseOpts (c :: restcut) = .error .Truncated := by
    rw [parseOpts.eq_def]
    dsimp only
    rw [if_neg hc255, if_neg hc0]
    rcases hcut with rfl | ⟨len, v, rfl, hlt⟩
    · rfl
    · dsimp only
      rw [if_neg (by omega)]
  rw [parseOpts_tlvBytes good _ hgood, hcutparse]

theorem decodeHeader_snd (bs : List Nat) :
    (decodeHeader bs).2 = bs.drop 236 := by
  simp [decodeHeader, readBE, readRaw, List.drop_drop]

/-- C6: an options area cut off mid-triple (a code without its length byte,
or a declared length longer than the remaining bytes) decodes as
`DecodeError.Truncated`; and every datagram whose decode errors is dropped
silently — no reply, and the pool and transaction state unchanged. -/
theorem truncated_decode_drop (table : OptTable) (cfg : ServerCfg)
    (listenOnly : Bool) (st : ServerState) (now : Nat)
    (pick : List Nat → Nat) (hb : List Nat) (good : List (Nat × List Nat))
    (c : Nat) (restcut : List Nat) (hlen : hb.length = 236)
    (hgood : ∀ p ∈ good, p.1 ≠ 0 ∧ p.1 ≠ 255)
    (hc0 : c ≠ 0) (hc255 : c ≠ 255)
    (hcut : restcut = [] ∨ ∃ len v, restcut = len :: v ∧ v.length < len) :
    decode table (hb ++ (magicCookie ++ (tlvBytes good ++ (c :: restcut)))) =
      .error .Truncated ∧
    ∀ bytes e, decode table bytes = .error e →
      handleDatagram cfg listenOnly table st now bytes pick =
        (st, [], none) := by
  constructor
  · unfold decode
    rw [if_neg (by simp [List.length_append, hlen, magicCookie]; omega)]
    have h2 : (decodeHeader (hb ++ (magicCookie ++
        (tlvBytes good ++ (c :: restcut))))).2 =
        magicCookie ++ (tlvBytes good ++ (c :: restcut)) := by
      rw [decodeHeader_snd, List.drop_left' hlen]
    rw [h2, List.take_left' (show magicCookie.length = 4 from rfl),
      if_pos rfl, List.drop_left' (show magicCookie.length = 4 from rfl)]
    rw [parseOpts_truncated good c restcut hgood hc0 hc255 hcut]
  · intro bytes e h
    unfold handleDatagram
    rw [h]

/-- A 236-byte all-zero fixed header region. -/
def c6hb : List Nat := List.replicate 236 0

/-- Witness: a concrete datagram ending in a lone option code 53 decodes as
Truncated and is dropped without reply or state change. -/
theorem truncated_decode_drop_witness :
    decode sampleTable (c6hb ++ (magicCookie ++ (tlvBytes [] ++ (53 :: [])))) =
      .error .Truncated ∧
    ∀ bytes e, decode sampleTable bytes = .error e →
      handleDatagram c5sCfg false sampleTable ⟨emptyPool, []⟩ 0 bytes
        (fun _ => 0) = (⟨emptyPool, []⟩, [], none) :=
  truncated_decode_drop sampleTable c5sCfg false ⟨emptyPool, []⟩ 0
    (fun _ => 0) c6hb [] 53 [] (by rw [c6hb, List.length_replicate]) (by decide)
    (by decide) (by decide) (Or.inl rfl)

/-- C9: a listen-only server never sends: for every inbound datagram the
outgoing message list is empty and the state unchanged, while a decodable
datagram is still decoded and observed; and the constructor's `listenOnly`
flag defaults to false. -/
theorem listenOnly_never_sends (cfg : ServerCfg) (table : OptTable)
    (st : ServerState) (now : Nat) (bytes : List Nat)
    (pick : List Nat → Nat) :
    (handleDatagram cfg true table st now bytes pick).2.1 = [] ∧
    (handleDatagram cfg true table st now bytes pick).1 = st ∧
    (∀ pkt, decode table bytes = .ok pkt →
      (handleDatagram cfg true table st now bytes pick).2.2 = some pkt) ∧
    (createServer cfg).listenOnly = false := by
  refine ⟨?_, ?_, ?_, rfl⟩
  · unfold handleDatagram
    rcases decode table bytes with e | pkt
    · rfl
    · rfl
  · unfold handleDatagram
    rcases decode table bytes with e | pkt
    · rfl
    · rfl
  · intro pkt h
    unfold handleDatagram
    rw [h]
    rfl

/-- C7: the payload splitter produces chunks of at most 255 bytes whose
concatenation is the original payload; the emitted entries all carry the
same code; parsing them back yields exactly those same-code triples; and the
decoder's duplicate concatenation restores the original payload. -/
theorem split_concat_roundtrip (c : Nat) (payload : List Nat)
    (hc0 : c ≠ 0) (hc255 : c ≠ 255) :
    (∀ ch ∈ chunk255 payload, ch.length ≤ 255) ∧
    (chunk255 payload).flatten = payload ∧
    encodeTLVs c payload =
      tlvBytes ((chunk255 payload).map (fun ch => (c, ch))) ∧
    (∀ p ∈ (chunk255 payload).map (fun ch => (c, ch)), p.1 = c) ∧
    parseOpts (encodeTLVs c payload ++ [255]) =
      .ok ((chunk255 payload).map (fun ch => (c, ch))) ∧
    mergeDups ((chunk255 payload).map (fun ch => (c, ch))) = [(c, payload)] := by
  have hcodes : ∀ p ∈ (chunk255 payload).map (fun ch => (c, ch)),
      p.1 ≠ 0 ∧ p.1 ≠ 255 := by
    intro p hp
    simp only [List.mem_map] at hp
    obtain ⟨ch, _, rfl⟩ := hp
    exact ⟨hc0, hc255⟩
  refine ⟨chunk255_length_le payload, chunk255_flatten payload,
    encodeTLVs_eq_tlvBytes c payload, ?_, ?_, ?_⟩
  · intro p hp
    simp only [List.mem_map] at hp
    obtain ⟨ch, _, rfl⟩ := hp
    rfl
  · rw [encodeTLVs_eq_tlvBytes, parseOpts_tlvBytes _ _ hcodes,
      parseOpts_terminator]
    simp
  · have hrun := mergeDups_run c (chunk255 payload) []
      (chunk255_ne_nil payload) (by intro p hp; exact absurd hp (List.not_mem_nil p))
    rw [List.append_nil] at hrun
    rw [hrun, chunk255_flatten]
    simp [mergeDups]

/-- Witness: splitting and re-merging a 600-byte payload under code 43. -/
theorem split_concat_roundtrip_witness :
    (∀ ch ∈ chunk255 (List.replicate 600 7), ch.length ≤ 255) ∧
    (chunk255 (List.replicate 600 7)).flatten = List.replicate 600 7 ∧
    encodeTLVs 43 (List.replicate 600 7) =
      tlvBytes ((chunk255 (List.replicate 600 7)).map (fun ch => (43, ch))) ∧
    (∀ p ∈ (chunk255 (List.replicate 600 7)).map (fun ch => (43, ch)),
      p.1 = 43) ∧
    parseOpts (encodeTLVs 43 (List.replicate 600 7) ++ [255]) =
      .ok ((chunk255 (List.replicate 600 7)).map (fun ch => (43, ch))) ∧
    mergeDups ((chunk255 (List.replicate 600 7)).map (fun ch => (43, ch))) =
      [(43, List.replicate 600 7)] :=
  split_concat_roundtrip 43 (List.replicate 600 7) (by decide) (by decide)

/-- Client protocol states (§4.4). -/
inductive ClientState
  | init
  | selecting
  | requesting
  | boundSt
  | renewing
  | rebinding
deriving Repr, DecidableEq

/-- Modelled from the spec: T1 is the ACK's renewal time when present, else
leaseTime/2. -/
def deriveT1 (leaseTime : Nat) (renewalTime : Option Nat) : Nat :=
  renewalTime.getD (leaseTime / 2)

/-- Modelled from the spec: T2 is the ACK's rebinding time when present,
else leaseTime·7/8. -/
def deriveT2 (leaseTime : Nat) (rebindingTime : Option Nat) : Nat :=
  rebindingTime.getD (leaseTime * 7 / 8)

/-- The configured default lease time of `ServerConfig` (86400 s). -/
def defaultLeaseTime : Nat := 86400

/-- The configured default renewal time of `ServerConfig` (3600 s). -/
def defaultRenewalTime : Nat := 3600

/-- The configured default rebinding time of `ServerConfig` (14400 s). -/
def defaultRebindingTime : Nat := 14400

/-- The client's single active session. -/
structure ClientSession where
  state : ClientState := .init
  xid : Nat := 0
  ip : Nat := 0
  serverId : Nat := 0
  leaseTime : Nat := 0
  t1At : Nat := 0
  t2At : Nat := 0
  expireAt : Nat := 0
deriving Repr, DecidableEq

/-- The lease-relevant contents of a received ACK. -/
structure AckInfo where
  yiaddr : Nat
  leaseTime : Nat
  renewalTime : Option Nat := none
  rebindingTime : Option Nat := none
deriving Repr, DecidableEq

/-- Modelled from the spec: in REQUESTING an ACK records the leased ip and
leaseTime, derives T1/T2, arms both timers relative to receipt, and moves to
BOUND; other states are unaffected by this transition. -/
def clientHandleAck (s : ClientSession) (now : Nat) (ack : AckInfo) :
    ClientSession :=
  if s.state = .requesting then
    { s with
      state := .boundSt
      ip := ack.yiaddr
      leaseTime := ack.leaseTime
      t1At := now + deriveT1 ack.leaseTime ack.renewalTime
      t2At := now + deriveT2 ack.leaseTime ack.rebindingTime
      expireAt := now + ack.leaseTime }
  else s

/-- C8 counterexample: under the configured defaults the derived timer
defaults are 43200 s and 75600 s — they do not agree with the configured
renewalTime (3600 s) and rebindingTime (14400 s) defaults. -/
theorem derived_defaults_mismatch :
    deriveT1 defaultLeaseTime none = 43200 ∧
    deriveT2 defaultLeaseTime none = 75600 ∧
    deriveT1 defaultLeaseTime none ≠ defaultRenewalTime ∧
    deriveT2 defaultLeaseTime none ≠ defaultRebindingTime := by
  refine ⟨rfl, rfl, by decide, by decide⟩

/-- C8 (amended): in REQUESTING an ACK carrying leaseTime and no explicit
renewal/rebinding times yields T1 = leaseTime/2 and T2 = leaseTime·7/8,
both armed relative to receipt, and moves the session to BOUND; under the
configured defaults the derived values are 43200 s and 75600 s, which differ
from the configured renewalTime/rebindingTime defaults. -/
theorem client_ack_timers (s : ClientSession) (now : Nat) (ack : AckInfo)
    (hst : s.state = .requesting) (h1 : ack.renewalTime = none)
    (h2 : ack.rebindingTime = none) :
    (clientHandleAck s now ack).state = .boundSt ∧
    (clientHandleAck s now ack).ip = ack.yiaddr ∧
    (clientHandleAck s now ack).leaseTime = ack.leaseTime ∧
    (clientHandleAck s now ack).t1At = now + ack.leaseTime / 2 ∧
    (clientHandleAck s now ack).t2At = now + ack.leaseTime * 7 / 8 ∧
    (clientHandleAck s now ack).expireAt = now + ack.leaseTime ∧
    deriveT1 defaultLeaseTime none = 43200 ∧
    deriveT2 defaultLeaseTime none = 75600 ∧
    deriveT1 defaultLeaseTime none ≠ defaultRenewalTime ∧
    deriveT2 defaultLeaseTime none ≠ defaultRebindingTime := by
  unfold clientHandleAck
  rw [if_pos hst]
  refine ⟨rfl, rfl, rfl, ?_, ?_, rfl, rfl, rfl, by decide, by decide⟩
  · dsimp only
    simp [deriveT1, h1]
  · dsimp only
    simp [deriveT2, h2]

/-- A session awaiting its ACK. -/
def c8sess : ClientSession := { state := .requesting, xid := 7 }

/-- An ACK assigning address 11 for 100 s with no explicit timer options. -/
def c8ack : AckInfo := { yiaddr := 11, leaseTime := 100 }

/-- Witness: the ACK-timer theorem applied at a concrete session. -/
theorem client_ack_timers_witness :
    (clientHandleAck c8sess 50 c8ack).state = .boundSt ∧
    (clientHandleAck c8sess 50 c8ack).ip = c8ack.yiaddr ∧
    (clientHandleAck c8sess 50 c8ack).leaseTime = c8ack.leaseTime ∧
    (clientHandleAck c8sess 50 c8ack).t1At = 50 + c8ack.leaseTime / 2 ∧
    (clientHandleAck c8sess 50 c8ack).t2At = 50 + c8ack.leaseTime * 7 / 8 ∧
    (clientHandleAck c8sess 50 c8ack).expireAt = 50 + c8ack.leaseTime ∧
    deriveT1 defaultLeaseTime none = 43200 ∧
    deriveT2 defaultLeaseTime none = 75600 ∧
    deriveT1 defaultLeaseTime none ≠ defaultRenewalTime ∧
    deriveT2 defaultLeaseTime none ≠ defaultRebindingTime :=
  client_ack_timers c8sess 50 c8ack rfl rfl rfl

/-- The `DhcpOption` descriptor of `dhcp.d.ts` as passed to `addOption`
(the option code is the separate first argument). -/
structure DhcpOptionDesc where
  name : String
  type : OptValueType
  config : Option String := none
  attr : Option String := none
  default : Option OptValue := none
  enumLabels : List (Nat × String) := []
deriving Repr, DecidableEq

/-- The table row registering a descriptor under a code. -/
def toEntry (code : Nat) (o : DhcpOptionDesc) : OptEntry :=
  { code := code, name := o.name, type := o.type, config := o.config,
    attr := o.attr, default := o.default, enumLabels := o.enumLabels }

/-- Modelled from the spec: `addOption(code, opt)` updates the process-wide
option table (modelled, per the design notes, as an explicit registry that
every codec call consults): a code already registered is replaced in place,
a new code is appended. -/
def addOption (code : Nat) (opt : DhcpOptionDesc) (table : OptTable) :
    OptTable :=
  if table.any (fun e => e.code == code) then
    table.map (fun e => if e.code == code then toEntry code opt else e)
  else table ++ [toEntry code opt]

theorem findEntry_addOption_replace (code : Nat) (opt : DhcpOptionDesc)
    (table : OptTable) (h : table.any (fun e => e.code == code) = true) :
    findEntry (table.map (fun e =>
      if e.code == code then toEntry code opt else e)) code =
      some (toEntry code opt) := by
  induction table with
  | nil => simp at h
  | cons e ts ih =>
    simp only [List.map_cons]
    unfold findEntry
    rcases hc : e.code == code with _ | _
    · rw [if_neg (by simp)]
      rw [List.find?_cons_of_neg _ (by simp [hc])]
      have hany : ts.any (fun e => e.code == code) = true := by
        simp only [List.any_cons, hc, Bool.false_or] at h
        exact h
      exact ih hany
    · rw [if_pos rfl]
      exact List.find?_cons_of_pos _ (by simp [toEntry])

theorem findEntry_addOption_append (code : Nat) (opt : DhcpOptionDesc)
    (table : OptTable) (h : table.any (fun e => e.code == code) = false) :
    findEntry (table ++ [toEntry code opt]) code =
      some (toEntry code opt) := by
  induction table with
  | nil =>
    unfold findEntry
    exact List.find?_cons_of_pos _ (by simp [toEntry])
  | cons e ts ih =>
    simp only [List.any_cons, Bool.or_eq_false_iff] at h
    unfold findEntry
    simp only [List.cons_append]
    rw [List.find?_cons_of_neg _ (by simp [h.1])]
    have := ih (by simp [h.2])
    unfold findEntry at this
    exact this

theorem lookupOpt_singleton_eq (c : Nat) (v : OptValue) :
    lookupOpt [(c, v)] c = some v := by
  simp [lookupOpt]

theorem lookupOpt_singleton_ne (c cx : Nat) (v : OptValue) (h : cx ≠ c) :
    lookupOpt [(c, v)] cx = none := by
  unfold lookupOpt
  rw [List.find?_cons_of_neg _ (by simp [Ne.symm h])]
  rfl

theorem encodeOptions_all_none (t : OptTable) (opts : List (Nat × OptValue))
    (h : ∀ e ∈ t, lookupOpt opts e.code = none) :
    encodeOptions t opts = [] := by
  induction t with
  | nil => rfl
  | cons e ts ih =>
    have ihe := ih (fun f hf => h f (List.mem_cons_of_mem e hf))
    simp only [encodeOptions, List.map_cons, List.flatten_cons]
    rw [h e (List.mem_cons_self e ts)]
    simp only [encodeOptions] at ihe
    rw [ihe]
    rfl

/-- The encoder with one registered code present in the packet emits exactly
that code's serialized value. -/
theorem encodeOptions_singleton (t : OptTable) (c : Nat) (v : OptValue)
    (hnod : (t.map OptEntry.code).Nodup) (hmem : c ∈ t.map OptEntry.code) :
    encodeOptions t [(c, v)] = encodeTLVs c (serializeValue v) := by
  induction t with
  | nil => simp at hmem
  | cons e ts ih =>
    simp only [List.map_cons, List.nodup_cons] at hnod
    simp only [encodeOptions, List.map_cons, List.flatten_cons]
    rcases hec : e.code == c with _ | _
    · have hne : e.code ≠ c := by simpa using hec
      rw [lookupOpt_singleton_ne c e.code v hne]
      have hmem2 : c ∈ ts.map OptEntry.code := by
        simp only [List.map_cons, List.mem_cons] at hmem
        rcases hmem with rfl | hm
        · exact absurd rfl hne
        · exact hm
      have ihe := ih hnod.2 hmem2
      simp only [encodeOptions] at ihe
      rw [ihe]
      rfl
    · have heq : e.code = c := by simpa using hec
      rw [heq, lookupOpt_singleton_eq c v]
      have htail : encodeOptions ts [(c, v)] = [] := by
        apply encodeOptions_all_none
        intro f hf
        apply lookupOpt_singleton_ne
        intro hEq
        apply hnod.1
        rw [heq, ← hEq]
        exact List.mem_map_of_mem OptEntry.code hf
      simp only [encodeOptions] at htail
      rw [htail]
      simp

/-- C10: after `addOption(code, opt)` the registry (consulted by every codec
call, whether the instance was created before or after the call) maps `code`
to exactly the new descriptor, keeps at most one descriptor per code,
decodes that code's payloads per `opt.type`, emits a packet's value for that
code through the new entry when encoding, and encode-then-decode for that
code is the identity on `opt.type`-representative values. -/
theorem addOption_registers (table : OptTable) (code : Nat)
    (opt : DhcpOptionDesc) (ht : (table.map OptEntry.code).Nodup) :
    findEntry (addOption code opt table) code = some (toEntry code opt) ∧
    (toEntry code opt).type = opt.type ∧
    ((addOption code opt table).map OptEntry.code).Nodup ∧
    (∀ bs, decodePayload (addOption code opt table) code bs =
      decodeValue opt.type bs) ∧
    (∀ v, encodeOptions (addOption code opt table) [(code, v)] =
      encodeTLVs code (serializeValue v)) ∧
    (∀ v, validValue opt.type v = true →
      decodePayload (addOption code opt table) code (serializeValue v) =
        .ok v) := by
  have h1 : findEntry (addOption code opt table) code =
      some (toEntry code opt) := by
    unfold addOption
    rcases hany : table.any (fun e => e.code == code) with _ | _
    · rw [if_neg (by simp)]
      exact findEntry_addOption_append code opt table hany
    · rw [if_pos rfl]
      exact findEntry_addOption_replace code opt table hany
  have h3 : ((addOption code opt table).map OptEntry.code).Nodup := by
    unfold addOption
    rcases hany : table.any (fun e => e.code == code) with _ | _
    · rw [if_neg (by simp)]
      rw [List.map_append, List.nodup_append]
      refine ⟨ht, by simp, ?_⟩
      intro x hx
      simp only [List.map_cons, List.map_nil, List.mem_singleton, toEntry]
      intro hEq
      subst hEq
      rw [List.any_eq_false] at hany
      simp only [List.mem_map] at hx
      obtain ⟨e, he, hec⟩ := hx
      exact absurd (by simp [hec] : (e.code == x) = true) (by simpa using hany e he)
    · rw [if_pos rfl]
      have hcodes : (table.map (fun e =>
          if e.code == code then toEntry code opt else e)).map OptEntry.code =
          table.map OptEntry.code := by
        rw [List.map_map]
        apply List.map_congr_left
        intro e _
        simp only [Function.comp_apply]
        split
        · rename_i hc
          simp only [beq_iff_eq] at hc
          simp [toEntry, hc]
        · rfl
      rw [hcodes]
      exact ht
  refine ⟨h1, rfl, h3, ?_, ?_, ?_⟩
  · intro bs
    unfold decodePayload
    rw [h1]
    rfl
  · intro v
    apply encodeOptions_singleton _ _ _ h3
    obtain ⟨hm, hc⟩ := findEntry_mem_code _ _ _ h1
    rw [← hc]
    exact List.mem_map_of_mem OptEntry.code hm
  · intro v hv
    unfold decodePayload
    rw [h1]
    exact decodeValue_serializeValue opt.type v hv

/-- A fresh descriptor to register. -/
def c10opt : DhcpOptionDesc := { name := "custom", type := .UInt16 }

/-- Witness: registering code 99 in the sample table. -/
theorem addOption_registers_witness :
    findEntry (addOption 99 c10opt sampleTable) 99 =
      some (toEntry 99 c10opt) ∧
    (toEntry 99 c10opt).type = c10opt.type ∧
    ((addOption 99 c10opt sampleTable).map OptEntry.code).Nodup ∧
    (∀ bs, decodePayload (addOption 99 c10opt sampleTable) 99 bs =
      decodeValue c10opt.type bs) ∧
    (∀ v, encodeOptions (addOption 99 c10opt sampleTable) [(99, v)] =
      encodeTLVs 99 (serializeValue v)) ∧
    (∀ v, validValue c10opt.type v = true →
      decodePayload (addOption 99 c10opt sampleTable) 99 (serializeValue v) =
        .ok v) :=
  addOption_registers sampleTable 99 c10opt (by decide)

end Dhcp
